import Mathlib

/-! Simple-shell: pipeline resolution and execution engine.

A shallow embedding of the second program of `src/main.c` (the part that
starts at the marker `shell system.c`): `trimSpace`, `parse_line`,
`eval_commands`, `execute` and the body of the loop of `main`.

* C strings live in a character buffer (`Buf`); a `char *` is an offset into
  it and `NULL` is `none`.  Reading at or past the end of the list yields the
  terminator, so a list without the terminator character stands for the
  NUL-terminated string with that content.
* The operating system (descriptor table, files, directories, child
  processes) is an explicit `World` value threaded through the calls.
-/

namespace SimpleShell

/-! ## Character buffers and C strings -/

/-- A character array.  The list holds the bytes of the array; every position
at or after its end reads as the terminator. -/
abbrev Buf := List Char

/-- The string terminator. -/
def NUL : Char := Char.ofNat 0

/-- Read `b[i]`. -/
def rd (b : Buf) (i : Nat) : Char := b.getD i NUL

/-- Write `b[i] = c`. -/
def wr (b : Buf) (i : Nat) (c : Char) : Buf := b.set i c

/-- The C string that starts at offset `p`: the characters up to the first
terminator. -/
def cstr (b : Buf) (p : Nat) : List Char := (b.drop p).takeWhile (fun c => c != NUL)

/-- Library `strlen` at offset `p`. -/
def strlen (b : Buf) (p : Nat) : Nat := (cstr b p).length

/-- Library `strspn`: length of the initial run of characters of the string
at `p` that belong to `delim`. -/
def strspn (b : Buf) (p : Nat) (delim : List Char) : Nat :=
  ((b.drop p).takeWhile (fun c => c != NUL && delim.contains c)).length

/-- Library `strcspn`: length of the initial run of characters of the string
at `p` that do not belong to `delim`. -/
def strcspn (b : Buf) (p : Nat) (delim : List Char) : Nat :=
  ((b.drop p).takeWhile (fun c => c != NUL && !delim.contains c)).length

/-- Library `strtok`, with its hidden save pointer made explicit: scanning
starts at `s`; the result is the token pointer (or `NULL`), the buffer after
the terminator was written behind the token, and the new save pointer. -/
def strtok (b : Buf) (s : Nat) (delim : List Char) : Option Nat × Buf × Nat :=
  let s1 := s + strspn b s delim
  if rd b s1 = NUL then (none, b, s1)
  else
    let e := s1 + strcspn b s1 delim
    if rd b e = NUL then (some s1, b, e)
    else (some s1, wr b e NUL, e + 1)

/-! ## `trimSpace` -/

/-- First loop of `trimSpace`: `for (i = 0; buffer[i] != 0; i++)`, leaving
with the address of the first character that is not a blank.  The first
argument bounds the number of iterations. -/
def trimSpace_first (b : Buf) (p : Nat) : Nat → Nat → Option Nat
  | 0, _ => none
  | fuel + 1, i =>
    if rd b (p + i) = NUL then none
    else if rd b (p + i) ≠ ' ' then some (p + i)
    else trimSpace_first b p fuel (i + 1)

/-- Second loop of `trimSpace`: `for (j = strlen(buffer) - 1; j >= 0; j--)`,
the argument being `j + 1`; the terminator is written behind the last
character that is not a blank. -/
def trimSpace_last (b : Buf) (p : Nat) : Nat → Buf
  | 0 => b
  | j + 1 =>
    if rd b (p + j) ≠ ' ' then wr b (p + j + 1) NUL
    else trimSpace_last b p j

/-- Source function `trimSpace(buffer)`: returns the buffer after the write
and the returned pointer (`NULL` when the string has no non-blank
character). -/
def trimSpace (b : Buf) (p : Nat) : Buf × Option Nat :=
  let new_buffer := trimSpace_first b p (b.length + 1) 0
  (trimSpace_last b p (strlen b p), new_buffer)

/-! ## `parse_line` -/

/-- The three string pointers of a `struct Cmd` while the line is parsed. -/
structure Ptrs where
  cmd : Option Nat
  infile : Option Nat
  outfile : Option Nat
deriving DecidableEq, Repr

/-- Source type `struct Cmd`.  The three `char *` fields hold the string they
point at once `parse_line` has returned (`none` for `NULL`). -/
structure Cmd where
  cmd : Option (List Char)
  infile : Option (List Char)
  outfile : Option (List Char)
  infd : Int
  infdpipe : Int
  outfd : Int
  outfdpipe : Int
deriving DecidableEq, Repr

/-- The loop over `token[0]` in `parse_line`; `i` is the loop index and the
first argument bounds the number of iterations. -/
def scan0 (tok : Nat) : Nat → Nat → Buf → Ptrs → Buf × Ptrs
  | 0, _, b, c => (b, c)
  | fuel + 1, i, b, c =>
    if rd b (tok + i) = NUL then (b, c)
    else
      let c1 : Ptrs := { c with cmd := some tok }
      let r1 : Buf × Ptrs :=
        if rd b (tok + i) = '<' then
          (wr b (tok + i) NUL, { c1 with infile := some (tok + i + 1) })
        else (b, c1)
      let r2 : Buf × Ptrs :=
        if rd r1.1 (tok + i) = '>' then
          (wr r1.1 (tok + i) NUL, { r1.2 with outfile := some (tok + i + 1) })
        else r1
      scan0 tok fuel (i + 1) r2.1 r2.2

/-- The loop over `token[1]` in `parse_line`: only `>` is looked for. -/
def scan1 (tok : Nat) : Nat → Nat → Buf → Ptrs → Buf × Ptrs
  | 0, _, b, c => (b, c)
  | fuel + 1, j, b, c =>
    if rd b (tok + j) = NUL then (b, c)
    else
      let c1 : Ptrs := { c with cmd := some tok }
      let r1 : Buf × Ptrs :=
        if rd b (tok + j) = '>' then
          (wr b (tok + j) NUL, { c1 with outfile := some (tok + j + 1) })
        else (b, c1)
      scan1 tok fuel (j + 1) r1.1 r1.2

/-- The statement `if (p != NULL) p = trimSpace(p);`. -/
def trimField (b : Buf) (p : Option Nat) : Buf × Option Nat :=
  match p with
  | none => (b, none)
  | some q => trimSpace b q

/-- The two `strtok` calls at the head of `parse_line`: the buffer after
them, `token[0]` and `token[1]`. -/
def tokens (line : Buf) : Buf × Option Nat × Option Nat :=
  let t0 := strtok line 0 ['|']
  let t1 := strtok t0.2.1 t0.2.2 ['|']
  (t1.2.1, t0.1, t1.1)

/-- The result of `parse_line`: the returned count and the two entries of
`cmds`. -/
structure Parsed where
  num : Nat
  cmds0 : Cmd
  cmds1 : Cmd
deriving DecidableEq, Repr

/-- A `struct Cmd` whose string pointers are read in buffer `b`; the integer
fields are the zeroes of the `memset`. -/
def mkCmd (b : Buf) (c : Ptrs) : Cmd :=
  { cmd := c.cmd.map (cstr b), infile := c.infile.map (cstr b),
    outfile := c.outfile.map (cstr b),
    infd := 0, infdpipe := 0, outfd := 0, outfdpipe := 0 }

/-- The pointers after the assignments `cmds[i].infile = NULL; ...`. -/
def nullPtrs : Ptrs := { cmd := none, infile := none, outfile := none }

/-- The block `if (token[0] != NULL) { ... }` of `parse_line`: the count, the
buffer and the pointers of `cmds[0]` after it. -/
def parse_token0 (b : Buf) (token0 : Option Nat) : Nat × Buf × Ptrs :=
  match token0 with
  | none => (0, b, nullPtrs)
  | some tok => (0 + 1, scan0 tok b.length 0 b nullPtrs)

/-- The block `if (token[1] != NULL) { ... }` of `parse_line`, entered with
the count `n`: the count, the buffer and the pointers of `cmds[1]` after
it. -/
def parse_token1 (n : Nat) (b : Buf) (token1 : Option Nat) : Nat × Buf × Ptrs :=
  match token1 with
  | none => (n, b, nullPtrs)
  | some tok => (n + 1, scan1 tok b.length 0 b nullPtrs)

/-- The six `trimSpace` statements that end `parse_line`, and the two
entries of `cmds` read in the final buffer. -/
def trim_fields (b : Buf) (c0 c1 : Ptrs) : Cmd × Cmd :=
  let a1 := trimField b c0.cmd
  let a2 := trimField a1.1 c0.infile
  let a3 := trimField a2.1 c0.outfile
  let a4 := trimField a3.1 c1.cmd
  let a5 := trimField a4.1 c1.infile
  let a6 := trimField a5.1 c1.outfile
  (mkCmd a6.1 { cmd := a1.2, infile := a2.2, outfile := a3.2 },
   mkCmd a6.1 { cmd := a4.2, infile := a5.2, outfile := a6.2 })

/-- Source function `parse_line(line, cmds)`. -/
def parse_line (line : Buf) : Parsed :=
  let t := tokens line
  let s0 := parse_token0 t.1 t.2.1
  let s1 := parse_token1 s0.1 s0.2.1 t.2.2
  let r := trim_fields s1.2.1 s0.2.2 s1.2.2
  { num := s1.1, cmds0 := r.1, cmds1 := r.2 }

/-! ## The operating system, as far as the interpreter sees it -/

/-- What an open descriptor refers to. -/
inductive FdObj where
  | tty
  | file (path : List Char)
  | dir (path : List Char)
  | pipeRead (id : Nat)
  | pipeWrite (id : Nat)
deriving DecidableEq, Repr

/-- Flags of `open(2)`; a list stands for their bitwise or. -/
inductive OFlag where
  | O_RDONLY | O_WRONLY | O_RDWR | O_CREAT | O_TRUNC | O_APPEND
deriving DecidableEq, Repr

/-- What is written on the terminal or handed to `system(3)`. -/
inductive Event where
  | stdout (text : List Char)
  | perror (text : List Char)
  | system (command : List Char)
deriving DecidableEq, Repr

/-- A child process created by `fork`: its process id, the text it splits
into `argv`, and what its standard input and output were redirected to by
`dup2` (`none`: inherited from the interpreter). -/
structure Proc where
  pid : Nat
  cmd : List Char
  stdin : Option FdObj
  stdout : Option FdObj
deriving DecidableEq, Repr

/-- One string of the environment block: its text and the number of bytes
of storage it sits in (at least the text and its terminator). -/
structure EnvVar where
  text : List Char
  size : Nat
deriving DecidableEq, Repr

/-- The state the interpreter runs in: the descriptor table of the
interpreter process, the file system, the working directory, the
environment block, the global buffer `cdir`, and the children. -/
structure World where
  fds : List (Nat × FdObj)
  fdMax : Nat
  files : List (List Char × List Char)
  dirs : List (List Char)
  cwd : List Char
  env : List EnvVar
  cdir : List Char
  procs : List Proc
  procMax : Nat
  reaped : List Nat
  pipes : Nat
  out : List Event
deriving DecidableEq, Repr

/-- Outcome of a call: it returns a value, or the process ends in `exit`, or
the call runs into undefined behaviour (a null pointer is dereferenced, or a
write goes past the end of a buffer). -/
inductive Res (α : Type) where
  | ret (a : α) (w : World)
  | exit (status : Int) (w : World)
  | fault (w : World)
deriving DecidableEq, Repr

/-- Lexical resolution of an absolute path: empty components and `.` are
skipped, `..` removes the component before it. -/
def normPath (p : List Char) : List Char :=
  let comps := (p.splitOn '/').foldl
    (fun acc c => if c = [] ∨ c = ['.'] then acc
                  else if c = ['.', '.'] then acc.dropLast else acc ++ [c]) []
  '/' :: ['/'].intercalate comps

/-- The absolute path a path names when the working directory is `cwd`. -/
def absPath (cwd p : List Char) : List Char :=
  normPath (if p.head? = some '/' then p else cwd ++ '/' :: p)

/-- The lowest descriptor number that is not open. -/
def lowestFree (fds : List (Nat × FdObj)) : Nat :=
  ((List.range (fds.length + 1)).find? (fun n => !(fds.map Prod.fst).contains n)).getD
    fds.length

/-- Replace the content of the file `q`. -/
def setFile (files : List (List Char × List Char)) (q content : List Char) :
    List (List Char × List Char) :=
  files.map (fun e => if e.1 = q then (q, content) else e)

/-- System call `open(path, flags, 0644)`: `none` is the result `-1`.  It
fails on the empty path, when the descriptor table is full, on a directory
opened for writing, and on a missing file unless `O_CREAT` is given and the
parent directory exists.  The content of an existing file is kept unless
`O_TRUNC` is given. -/
def sysOpen (w : World) (path : List Char) (flags : List OFlag) : Option Nat × World :=
  let q := absPath w.cwd path
  let fd := lowestFree w.fds
  let writing := flags.contains OFlag.O_RDWR || flags.contains OFlag.O_WRONLY
  if path = [] then (none, w)
  else if w.fdMax ≤ fd then (none, w)
  else if w.dirs.contains q then
    if writing then (none, w)
    else (some fd, { w with fds := w.fds ++ [(fd, FdObj.dir q)] })
  else
    match w.files.lookup q with
    | some _ =>
      let files := if writing && flags.contains OFlag.O_TRUNC then setFile w.files q []
                   else w.files
      (some fd, { w with fds := w.fds ++ [(fd, FdObj.file q)], files := files })
    | none =>
      if flags.contains OFlag.O_CREAT && w.dirs.contains (normPath (q ++ ['/', '.', '.'])) then
        (some fd, { w with fds := w.fds ++ [(fd, FdObj.file q)], files := w.files ++ [(q, [])] })
      else (none, w)

/-- System call `pipe(pipefd)`: `none` is the result `-1`; otherwise the
read end `pipefd[0]` and the write end `pipefd[1]`. -/
def sysPipe (w : World) : Option (Nat × Nat) × World :=
  let r := lowestFree w.fds
  let fds1 := w.fds ++ [(r, FdObj.pipeRead w.pipes)]
  let wd := lowestFree fds1
  if w.fdMax ≤ r ∨ w.fdMax ≤ wd then (none, w)
  else (some (r, wd),
        { w with fds := fds1 ++ [(wd, FdObj.pipeWrite w.pipes)], pipes := w.pipes + 1 })

/-- System call `close(fd)`; closing a descriptor that is not open changes
nothing. -/
def sysClose (w : World) (fd : Int) : World :=
  { w with fds := w.fds.filter (fun e => (e.1 : Int) ≠ fd) }

/-- System call `chdir(path)`: `false` is the result `-1`. -/
def sysChdir (w : World) (path : List Char) : Bool × World :=
  let q := absPath w.cwd path
  if path ≠ [] ∧ w.dirs.contains q then (true, { w with cwd := q }) else (false, w)

/-- Library call `getcwd(buf, size)`: `none` is the result `NULL`, given when
the path and its terminator do not fit in `size` bytes. -/
def sysGetcwd (w : World) (size : Nat) : Option (List Char) :=
  if w.cwd.length + 1 ≤ size then some w.cwd else none

/-- What descriptor `fd` of the interpreter refers to (`none`: not open, or
`fd` is `-1`). -/
def fdObj (w : World) (fd : Int) : Option FdObj :=
  (w.fds.find? (fun e => (e.1 : Int) = fd)).map Prod.snd

/-- System call `fork()` as the parent sees it: `none` is the result `-1`
(the process limit is reached); otherwise the child is recorded and its
process id returned. -/
def sysFork (w : World) (cmd : List Char) (infd outfd : Int) : Option Nat × World :=
  if w.procMax ≤ w.procs.length then (none, w)
  else
    let pid := 1000 + w.procs.length
    (some pid, { w with procs := w.procs ++
      [{ pid := pid, cmd := cmd, stdin := fdObj w infd, stdout := fdObj w outfd }] })

/-- System call `waitpid(pid, &status, 0)`: `false` is the result `-1`, given
when `pid` is not a child that is still to be waited for. -/
def sysWaitpid (w : World) (pid : Int) : Bool × World :=
  if (w.procs.any fun p => (p.pid : Int) = pid) ∧ ¬ (w.reaped.any fun q => (q : Int) = pid) then
    (true, { w with reaped := w.reaped ++ [pid.toNat] })
  else (false, w)

/-- Append an event to the log. -/
def emit (w : World) (e : Event) : World := { w with out := w.out ++ [e] }

/-- A child writes `data` through a descriptor it got for `obj`, freshly
opened without `O_APPEND`: the bytes replace the file content from offset 0
on and the rest of the file stays. -/
def childWrite (w : World) (obj : FdObj) (data : List Char) : World :=
  match obj with
  | FdObj.file q =>
    match w.files.lookup q with
    | some old => { w with files := setFile w.files q (data ++ old.drop data.length) }
    | none => w
  | _ => w

/-! ## `eval_commands` -/

/-- Source constant `LINE_MAX`: the size of the line buffer, and of the
buffer the `cd` branch reads the working directory into. -/
def LINE_MAX : Nat := 1024

/-- Source constant `PATH_MAX`: the size of the global buffer `cdir`. -/
def PATH_MAX : Nat := 1024

/-- The statement `if (cmd->infile) { ... }` of the loop of `eval_commands`.
The Boolean is `false` when it leaves through `return -1`. -/
def open_infile (w : World) (c : Cmd) : Bool × Cmd × World :=
  match c.infile with
  | none => (true, c, w)
  | some f =>
    match sysOpen w f [OFlag.O_RDONLY] with
    | (none, w1) => (false, { c with infd := -1 }, emit w1 (Event.perror f))
    | (some fd, w1) => (true, { c with infd := fd }, w1)

/-- The statement `if (cmd->outfile) { ... }` of the loop of `eval_commands`.
The Boolean is `false` when it leaves through `return -1`. -/
def open_outfile (w : World) (c : Cmd) : Bool × Cmd × World :=
  match c.outfile with
  | none => (true, c, w)
  | some f =>
    match sysOpen w f [OFlag.O_RDWR, OFlag.O_CREAT] with
    | (none, w1) => (false, { c with outfd := -1 }, emit w1 (Event.perror f))
    | (some fd, w1) => (true, { c with outfd := fd }, w1)

/-- One iteration of the loop of `eval_commands` on `cmds[i]`.  The Boolean
is `false` when the iteration leaves through `return -1`. -/
def eval_stage (w : World) (c : Cmd) : Bool × Cmd × World :=
  let r := open_infile w { c with infd := -1, infdpipe := -1, outfd := -1, outfdpipe := -1 }
  if r.1 then open_outfile r.2.2 r.2.1 else r

/-- Source function `eval_commands(cmds, numCmd)` for `numCmd ≤ 2`, the size
of the array `cmds`.  The result carries the returned integer and the array
after the call. -/
def eval_commands (w : World) (cmds : Cmd × Cmd) (numCmd : Nat) : Res (Int × Cmd × Cmd) :=
  -- for (i = 0; i < numCmd; i++), i = 0
  let r0 : Bool × Cmd × World := if 0 < numCmd then eval_stage w cmds.1 else (true, cmds.1, w)
  if !r0.1 then Res.ret (-1, r0.2.1, cmds.2) r0.2.2
  else
    -- i = 1
    let r1 : Bool × Cmd × World :=
      if 1 < numCmd then eval_stage r0.2.2 cmds.2 else (true, cmds.2, r0.2.2)
    if !r1.1 then Res.ret (-1, r0.2.1, r1.2.1) r1.2.2
    else if numCmd = 2 then
      match sysPipe r1.2.2 with
      | (none, w2) => Res.exit (-1) (emit w2 (Event.perror "pipe failed".toList))
      | (some (p0, p1), w2) =>
        Res.ret (0, { r0.2.1 with outfd := p1, outfdpipe := p0 },
                    { r1.2.1 with infd := p0, infdpipe := p1 }) w2
    else Res.ret (0, r0.2.1, r1.2.1) r1.2.2

/-! ## `execute` -/

/-- The test `strncmp(a, b, n) == 0` on strings without terminator inside. -/
def strncmp_eq (a b : List Char) (n : Nat) : Bool := a.take n == b.take n

/-- The loop over `environ` in the `cd` branch: in every entry that starts
with `PWD`, `strcpy(*var, "PWD=")` and `strcat(*var, cwd)` write the new
text over the old one, in the storage of the entry.  `cwd` is what
`getcwd(cwd, sizeof(cwd))` left in the local buffer (`none`: the call failed
and the buffer holds no string).  The result is `none` when a write runs past
the storage of an entry or the buffer holds no string: the behaviour is
undefined. -/
def setPWD : List EnvVar → Option (List Char) → Option (List EnvVar)
  | [], _ => some []
  | v :: env, cwd =>
    if strncmp_eq v.text "PWD".toList 3 then
      match cwd with
      | none => none
      | some d =>
        if ("PWD=".toList ++ d).length + 1 ≤ v.size then
          (setPWD env cwd).map (fun r => { v with text := "PWD=".toList ++ d } :: r)
        else none
    else (setPWD env cwd).map (fun r => v :: r)

/-- The `cd` branch of `execute`, for the text `t` of `c->cmd`.  The local
buffer `tempPath` holds `PATH_MAX` bytes; `sprintf(tempPath, "%s/%s",
tempPath, newDir)`, whose source and destination overlap, is taken to leave
the old content, a slash and `newDir`, as the C library does when the result
fits; a result that does not fit is a write past the buffer. -/
def execute_cd (w : World) (t : List Char) : Res Int :=
  let newDir := t.drop 3
  if t.drop 2 = [] then
    Res.ret (-1) (emit w (Event.stdout (w.cdir ++ ['\n'])))
  else
    -- the two branches on `newDir[0]`; `Res.fault`: a write past the end of a buffer
    let r : Res Unit :=
      if newDir.head? ≠ some '/' then
        let tempPath := w.cdir ++ '/' :: newDir
        if PATH_MAX < tempPath.length + 1 then Res.fault w
        else
          match sysChdir w tempPath with
          | (false, w1) => Res.ret () (emit w1 (Event.perror tempPath))
          | (true, w1) =>
            match setPWD w1.env (sysGetcwd w1 LINE_MAX) with
            | none => Res.fault w1
            | some env => Res.ret () { w1 with env := env }
      else
        match sysChdir w newDir with
        | (false, w1) => Res.ret () (emit w1 (Event.perror newDir))
        | (true, w1) => Res.ret () w1
    match r with
    | Res.fault w1 => Res.fault w1
    | Res.exit s w1 => Res.exit s w1
    | Res.ret _ w1 =>
      match sysGetcwd w1 PATH_MAX with
      | none => Res.exit (-1) (emit w1 (Event.perror "getcwd".toList))
      | some d => Res.ret (-1) { w1 with cdir := d }

/-- Source function `execute(c)`, as the interpreter process goes through
it; the child's side of `fork` is recorded in the `Proc` entry. -/
def execute (w : World) (c : Cmd) : Res Int :=
  match c.cmd with
  | none => Res.fault w
  | some t =>
    if strncmp_eq t "cd".toList 2 then execute_cd w t
    else if t = "about".toList then
      Res.ret (-1) (emit w (Event.stdout "Jui-Chun Huang, W1284254\nChang Liu, W1272763\n".toList))
    else if t = "clr".toList then Res.ret (-1) (emit w (Event.system "clear".toList))
    else if t = "dir".toList then Res.ret (-1) (emit w (Event.system "ls".toList))
    else if t = "dir -l".toList then Res.ret (-1) (emit w (Event.system "ls -l".toList))
    else if t = "environ".toList then
      Res.ret (-1) (w.env.foldl (fun acc v => emit acc (Event.stdout (v.text ++ ['\n']))) w)
    else if t = "help".toList then Res.ret (-1) (emit w (Event.system "help".toList))
    else if t = "exit".toList then
      Res.exit 0 (emit w (Event.stdout "Successfully Exit The Shell\n".toList))
    else
      match sysFork w t c.infd c.outfd with
      | (none, w1) => Res.exit (-1) (emit w1 (Event.perror "fork failed".toList))
      | (some pid, w1) => Res.ret pid w1

/-! ## The loop of `main` -/

/-- The body of the second loop of `main` for stage `i`: wait for the child
and close the two descriptors of the stage. -/
def wait_stage (w : World) (pid : Int) (c : Cmd) : World :=
  if pid ≠ -1 then
    match sysWaitpid w pid with
    | (false, w1) => emit w1 (Event.perror "waitpid".toList)
    | (true, w1) =>
      let w2 := if c.infd ≠ -1 then sysClose w1 c.infd else w1
      if c.outfd ≠ -1 then sysClose w2 c.outfd else w2
  else w

/-- One turn of the loop of `main`, from the line that `read_line` left in
the buffer to the end of the loop body.  `Res.ret` is the return to the
prompt. -/
def main_iter (w : World) (line : Buf) : Res Unit :=
  let p := parse_line line
  if p.num = 0 then Res.ret () w
  else
    match eval_commands w (p.cmds0, p.cmds1) p.num with
    | Res.exit s w1 => Res.exit s w1
    | Res.fault w1 => Res.fault w1
    | Res.ret (r, c0, c1) w1 =>
      if r = -1 then Res.ret () w1
      else
        -- pid[0] = execute(&cmds[0])
        match execute w1 c0 with
        | Res.exit s w2 => Res.exit s w2
        | Res.fault w2 => Res.fault w2
        | Res.ret pid0 w2 =>
          if p.num = 1 then Res.ret () (wait_stage w2 pid0 c0)
          else
            -- pid[1] = execute(&cmds[1])
            match execute w2 c1 with
            | Res.exit s w3 => Res.exit s w3
            | Res.fault w3 => Res.fault w3
            | Res.ret pid1 w3 => Res.ret () (wait_stage (wait_stage w3 pid0 c0) pid1 c1)

/-- The loop of `main` on the lines `read_line` delivers one after the
other: the prompt is printed, the line goes through one turn, and the loop
goes on unless the process has ended.  The run is followed as long as there
are lines. -/
def main_loop (w : World) : List Buf → Res Unit
  | [] => Res.ret () w
  | line :: rest =>
    match main_iter (emit w (Event.stdout "shell> ".toList)) line with
    | Res.ret _ w1 => main_loop w1 rest
    | Res.exit s w1 => Res.exit s w1
    | Res.fault w1 => Res.fault w1


/-! ## A sample state -/

/-- A state with the three standard descriptors open, the directories `/`,
`/home` and `/tmp`, one file `/home/out.txt`, and the interpreter started in
`/home`. -/
def sampleWorld : World where
  fds := [(0, FdObj.tty), (1, FdObj.tty), (2, FdObj.tty)]
  fdMax := 16
  files := [("/home/out.txt".toList, "hello world\n".toList)]
  dirs := ["/".toList, "/home".toList, "/tmp".toList]
  cwd := "/home".toList
  env := [{ text := "HOME=/home".toList, size := 11 }, { text := "PWD=/home".toList, size := 10 }]
  cdir := "/home".toList
  procs := []
  procMax := 8
  reaped := []
  pipes := 0
  out := []

/-- A `struct Cmd` as `parse_line` leaves it, with the given strings. -/
def stage (cmd : String) (infile outfile : Option String) : Cmd :=
  { cmd := some cmd.toList, infile := infile.map String.toList,
    outfile := outfile.map String.toList,
    infd := 0, infdpipe := 0, outfd := 0, outfdpipe := 0 }

/-- The value of the `PWD` entry of the environment block. -/
def pwdValue (env : List EnvVar) : Option (List Char) :=
  (env.find? (fun v => "PWD=".toList.isPrefixOf v.text)).map (fun v => v.text.drop 4)

/-- The non-empty maximal `|`-free segments of a text, in their order. -/
def pipeSegments (s : List Char) : List (List Char) :=
  (s.splitOn '|').filter (fun x => !x.isEmpty)

/-- The stage texts `parse_line` works on: the strings at `token[0]` and
`token[1]` after the two `strtok` calls, the null ones left out. -/
def stage_texts (line : Buf) : List (List Char) :=
  ((tokens line).2.1.map (cstr (tokens line).1)).toList ++
    ((tokens line).2.2.map (cstr (tokens line).1)).toList

/-- A text with the blanks at both ends removed. -/
def trimBlanks (s : List Char) : List Char :=
  (s.dropWhile (fun c => c == ' ')).rdropWhile (fun c => c == ' ')

/-- What the scan of `token[0]` leaves of a character: the two redirection
operators become terminators. -/
def blankOp (c : Char) : Char := if c = '<' ∨ c = '>' then NUL else c

/-- The pointers the scan of `token[0]` has set after going through the
characters `s`, the first of them at offset `pos`. -/
def scanPtrs (tok : Nat) : Nat → List Char → Ptrs → Ptrs
  | _, [], c => c
  | pos, ch :: s, c =>
    scanPtrs tok (pos + 1) s
      (if ch = '<' then { c with cmd := some tok, infile := some (pos + 1) }
       else if ch = '>' then { c with cmd := some tok, outfile := some (pos + 1) }
       else { c with cmd := some tok })

/-- A run of trailing blanks after the terminator was written on the first
of them. -/
def padTail : List Char → List Char
  | [] => []
  | _ :: t => NUL :: t

/-- What `trimSpace` leaves of a string in the buffer: the terminator takes
the place of the first of the trailing blanks. -/
def trimInPlace (s : List Char) : List Char :=
  if s.all (fun c => c == ' ') then s
  else
    s.rdropWhile (fun c => c == ' ') ++
      padTail (s.drop (s.rdropWhile (fun c => c == ' ')).length)

/-- A text without terminator, stage separator and redirection operator. -/
def Plain (s : List Char) : Prop := ∀ c ∈ s, c ≠ NUL ∧ c ≠ '|' ∧ c ≠ '<' ∧ c ≠ '>'

instance (s : List Char) : Decidable (Plain s) :=
  inferInstanceAs (Decidable (∀ c ∈ s, c ≠ NUL ∧ c ≠ '|' ∧ c ≠ '<' ∧ c ≠ '>'))

/-- A text with a character that is not a blank. -/
def NonBlank (s : List Char) : Prop := ∃ c ∈ s, c ≠ ' '

instance (s : List Char) : Decidable (NonBlank s) :=
  inferInstanceAs (Decidable (∃ c ∈ s, c ≠ ' '))

/-- A `struct Cmd` with the given strings and zeroed descriptors. -/
def cmdOf (cmd infile outfile : Option (List Char)) : Cmd :=
  { cmd := cmd, infile := infile, outfile := outfile,
    infd := 0, infdpipe := 0, outfd := 0, outfdpipe := 0 }

/-- Library `isspace` in the C locale: blank, tab, newline, vertical tab,
form feed, carriage return. -/
def isspace (c : Char) : Bool :=
  c == ' ' || c == '\t' || c == '\n' || c == Char.ofNat 11 || c == Char.ofNat 12 || c == '\r'

/-- A text with the whitespace at both ends removed. -/
def trimWhitespace (s : List Char) : List Char :=
  (s.dropWhile isspace).rdropWhile isspace

/-- A text whose only whitespace characters are blanks. -/
def OnlyBlanks (s : List Char) : Prop := ∀ c ∈ s, isspace c = true → c = ' '

instance (s : List Char) : Decidable (OnlyBlanks s) :=
  inferInstanceAs (Decidable (∀ c ∈ s, isspace c = true → c = ' '))

/-! ## Descriptor allocation -/

theorem lowestFree_not_mem (fds : List (Nat × FdObj)) :
    lowestFree fds ∉ fds.map Prod.fst := by
  unfold lowestFree
  cases h : (List.range (fds.length + 1)).find? (fun n => !(fds.map Prod.fst).contains n) with
  | some n =>
    have := List.find?_some h
    simpa using this
  | none =>
    exfalso
    rw [List.find?_eq_none] at h
    have hsub : List.range (fds.length + 1) ⊆ fds.map Prod.fst := by
      intro x hx
      have := h x hx
      simpa using this
    have hle := ((List.nodup_range (fds.length + 1)).subperm hsub).length_le
    simp at hle

theorem find_append_fresh (fds : List (Nat × FdObj)) (fd : Nat) (o : FdObj)
    (rest : List (Nat × FdObj)) (hfresh : fd ∉ fds.map Prod.fst) :
    ((fds ++ (fd, o) :: rest).find? (fun e => ((e.1 : Nat) : Int) = (fd : Int))).map Prod.snd
      = some o := by
  have : fds.find? (fun e => decide (((e.1 : Nat) : Int) = (fd : Int))) = none := by
    rw [List.find?_eq_none]
    intro x hx
    simp only [decide_eq_true_eq, Nat.cast_inj]
    intro hxe
    exact hfresh (List.mem_map.2 ⟨x, hx, hxe⟩)
  rw [List.find?_append, this]
  simp [List.find?_cons]

theorem sysOpen_none {w : World} {p : List Char} {fl : List OFlag}
    (h : (sysOpen w p fl).1 = none) : (sysOpen w p fl).2 = w := by
  unfold sysOpen at h ⊢
  simp only at h ⊢
  repeat' split
  all_goals first
    | rfl
    | (exfalso; simp_all)

theorem sysPipe_some {w w1 : World} {p0 p1 : Nat} (h : sysPipe w = (some (p0, p1), w1)) :
    p0 = lowestFree w.fds ∧ p1 = lowestFree (w.fds ++ [(p0, FdObj.pipeRead w.pipes)]) ∧
      w1.fds = w.fds ++ [(p0, FdObj.pipeRead w.pipes), (p1, FdObj.pipeWrite w.pipes)] := by
  unfold sysPipe at h
  simp only at h
  split_ifs at h
  · simp at h
  · simp only [Prod.mk.injEq, Option.some.injEq] at h
    obtain ⟨⟨rfl, rfl⟩, rfl⟩ := h
    simp

/-! ## `eval_commands` -/

/-- C1: if both stages of a two-stage pipeline get through their redirection
opens and `pipe` succeeds with read end `p0` and write end `p1`, then
`eval_commands` returns 0, stage 0 has `outfd = p1` and `outfdpipe = p0`,
stage 1 has `infd = p0` and `infdpipe = p1`, and in the resulting descriptor
table `p0` and `p1` are the two distinct ends of one and the same pipe. -/
theorem eval_commands_two_stage_wiring (w w1 w2 w3 : World) (c0 c1 d0 d1 : Cmd) (p0 p1 : Nat)
    (h0 : eval_stage w c0 = (true, d0, w1))
    (h1 : eval_stage w1 c1 = (true, d1, w2))
    (hp : sysPipe w2 = (some (p0, p1), w3)) :
    ∃ e0 e1, eval_commands w (c0, c1) 2 = Res.ret (0, e0, e1) w3 ∧
      e0.outfd = p1 ∧ e1.infd = p0 ∧ e0.outfdpipe = p0 ∧ e1.infdpipe = p1 ∧
      fdObj w3 p0 = some (FdObj.pipeRead w2.pipes) ∧
      fdObj w3 p1 = some (FdObj.pipeWrite w2.pipes) ∧ p0 ≠ p1 := by
  obtain ⟨hp0, hp1, hfds⟩ := sysPipe_some hp
  have f0 : p0 ∉ w2.fds.map Prod.fst := hp0 ▸ lowestFree_not_mem _
  have f1 : p1 ∉ (w2.fds ++ [(p0, FdObj.pipeRead w2.pipes)]).map Prod.fst :=
    hp1 ▸ lowestFree_not_mem _
  refine ⟨{ d0 with outfd := p1, outfdpipe := p0 }, { d1 with infd := p0, infdpipe := p1 },
    ?_, rfl, rfl, rfl, rfl, ?_, ?_, ?_⟩
  · simp [eval_commands, h0, h1, hp]
  · unfold fdObj
    rw [hfds]
    exact find_append_fresh _ _ _ _ f0
  · unfold fdObj
    rw [hfds]
    have := find_append_fresh (w2.fds ++ [(p0, FdObj.pipeRead w2.pipes)]) p1
      (FdObj.pipeWrite w2.pipes) [] f1
    simpa using this
  · intro h
    apply f1
    simp [h]

/-- Witness for C1: the line `ls | wc` in the sample state; the pipe gets
descriptors 3 and 4. -/
theorem eval_commands_two_stage_wiring_witness :
    ∃ e0 e1, eval_commands sampleWorld (stage "ls" none none, stage "wc" none none) 2
        = Res.ret (0, e0, e1) (sysPipe sampleWorld).2 ∧
      e0.outfd = (4 : Nat) ∧ e1.infd = (3 : Nat) ∧ e0.outfdpipe = (3 : Nat) ∧
      e1.infdpipe = (4 : Nat) ∧
      fdObj (sysPipe sampleWorld).2 (3 : Nat) = some (FdObj.pipeRead sampleWorld.pipes) ∧
      fdObj (sysPipe sampleWorld).2 (4 : Nat) = some (FdObj.pipeWrite sampleWorld.pipes) ∧
      3 ≠ 4 :=
  eval_commands_two_stage_wiring sampleWorld sampleWorld sampleWorld (sysPipe sampleWorld).2
    (stage "ls" none none) (stage "wc" none none) _ _ 3 4 rfl rfl rfl

/-- C2: in the sample state, for the line `ls > out.txt | wc` every open
succeeds and the file is opened on descriptor 3, but after `eval_commands`
stage 0 has `outfd = 5`, the write end of the pipe, and stage 1 has
`infd = 4`, the read end, not `-1`: the pipe has overridden the file.  The
other paths keep the file: for the single stage `ls > out.txt` stage 0 has
`outfd = 3`, and for `ls | wc > out.txt` stage 1 has `outfd = 3`, both the
descriptor of the file. -/
theorem eval_commands_file_output_overridden :
    (parse_line "ls > out.txt | wc".toList).num = 2 ∧
    (parse_line "ls > out.txt | wc".toList).cmds0.outfile = some "out.txt".toList ∧
    (∃ e0 e1 w1,
      eval_commands sampleWorld ((parse_line "ls > out.txt | wc".toList).cmds0,
        (parse_line "ls > out.txt | wc".toList).cmds1) 2 = Res.ret (0, e0, e1) w1 ∧
      fdObj w1 3 = some (FdObj.file "/home/out.txt".toList) ∧
      e0.outfd = 5 ∧ fdObj w1 5 = some (FdObj.pipeWrite 0) ∧
      e1.infd = 4 ∧ ¬ (e0.outfd = 3 ∧ e1.infd = -1)) ∧
    (∃ e0 e1 w1,
      eval_commands sampleWorld ((parse_line "ls > out.txt".toList).cmds0,
        (parse_line "ls > out.txt".toList).cmds1) 1 = Res.ret (0, e0, e1) w1 ∧
      e0.outfd = 3 ∧ fdObj w1 3 = some (FdObj.file "/home/out.txt".toList)) ∧
    (∃ e0 e1 w1,
      eval_commands sampleWorld ((parse_line "ls | wc > out.txt".toList).cmds0,
        (parse_line "ls | wc > out.txt".toList).cmds1) 2 = Res.ret (0, e0, e1) w1 ∧
      e1.outfd = 3 ∧ fdObj w1 3 = some (FdObj.file "/home/out.txt".toList)) :=
  ⟨by decide, by decide,
    ⟨_, _, _, rfl, by decide, by decide, by decide, by decide, by decide⟩,
    ⟨_, _, _, rfl, by decide, by decide⟩,
    ⟨_, _, _, rfl, by decide, by decide⟩⟩

/-! ## `parse_line`: which fields can be set -/

theorem scan1_infile (tok : Nat) (fuel j : Nat) (b : Buf) (c : Ptrs) :
    (scan1 tok fuel j b c).2.infile = c.infile := by
  induction fuel generalizing j b c with
  | zero => rfl
  | succ n ih =>
    unfold scan1
    split_ifs
    · rfl
    · simp only [ih]
    · simp only [ih]

theorem trimField_none (b : Buf) : trimField b none = (b, none) := rfl

theorem parse_token1_infile (n : Nat) (b : Buf) (t : Option Nat) :
    (parse_token1 n b t).2.2.infile = none := by
  cases t with
  | none => rfl
  | some tok => simp [parse_token1, scan1_infile, nullPtrs]

theorem parse_line_cmds1_infile (line : Buf) : (parse_line line).cmds1.infile = none := by
  simp [parse_line, trim_fields, mkCmd, parse_token1_infile, trimField_none]

theorem parse_line_num_pos (line : Buf) (h : (tokens line).2.1 ≠ none) :
    (parse_line line).num ≠ 0 := by
  cases h0 : (tokens line).2.1 with
  | none => exact absurd h0 h
  | some tok =>
    cases h1 : (tokens line).2.2 <;> simp [parse_line, parse_token0, parse_token1, h0, h1]

theorem parse_line_infile_num (line : Buf) (f : List Char)
    (h : (parse_line line).cmds0.infile = some f) : (parse_line line).num ≠ 0 := by
  apply parse_line_num_pos
  intro h0
  simp [parse_line, trim_fields, mkCmd, parse_token0, h0, nullPtrs, trimField_none] at h

/-! ## The loop of `main` -/

theorem sysOpen_emit (w : World) (e : Event) (p : List Char) (fl : List OFlag) :
    sysOpen (emit w e) p fl = ((sysOpen w p fl).1, emit (sysOpen w p fl).2 e) := by
  unfold sysOpen emit
  simp only
  repeat' split
  all_goals rfl

/-- One turn of the loop when the input file of stage 0 cannot be opened. -/
theorem input_open_failure_turn (w : World) (line : Buf) (f : List Char)
    (hin : (parse_line line).cmds0.infile = some f)
    (hfail : (sysOpen w f [OFlag.O_RDONLY]).1 = none) :
    eval_commands w ((parse_line line).cmds0, (parse_line line).cmds1) (parse_line line).num
      = Res.ret (-1, { (parse_line line).cmds0 with
          infd := -1, infdpipe := -1, outfd := -1, outfdpipe := -1 }, (parse_line line).cmds1)
        (emit w (Event.perror f)) ∧
    main_iter w line = Res.ret () (emit w (Event.perror f)) := by
  have hnum := parse_line_infile_num line f hin
  have hw := sysOpen_none hfail
  have hstage : eval_stage w (parse_line line).cmds0
      = (false, { (parse_line line).cmds0 with
                    infd := -1, infdpipe := -1, outfd := -1, outfdpipe := -1 },
          emit w (Event.perror f)) := by
    rcases hs : sysOpen w f [OFlag.O_RDONLY] with ⟨_ | fd, w1⟩
    · rw [hs] at hw
      simp only at hw
      subst hw
      simp [eval_stage, open_infile, hin, hs]
    · rw [hs] at hfail
      simp at hfail
  have heval : eval_commands w ((parse_line line).cmds0, (parse_line line).cmds1)
      (parse_line line).num = Res.ret (-1, { (parse_line line).cmds0 with
          infd := -1, infdpipe := -1, outfd := -1, outfdpipe := -1 }, (parse_line line).cmds1)
        (emit w (Event.perror f)) := by
    simp [eval_commands, Nat.pos_of_ne_zero hnum, hstage]
  exact ⟨heval, by simp [main_iter, hnum, heval]⟩

/-- C3: when the line names an input file for stage 0 (the only stage
`parse_line` gives one to) and opening it fails, `eval_commands` returns -1
and the turn of the loop of `main` ends at once: the state is the one before
the line except for the error message, so `execute` ran for no stage and no
process was created; the loop of `main` goes on with the next line. -/
theorem main_iter_input_open_failure (w : World) (line : Buf) (f : List Char)
    (hin : (parse_line line).cmds0.infile = some f)
    (hfail : (sysOpen w f [OFlag.O_RDONLY]).1 = none) :
    (parse_line line).cmds1.infile = none ∧
    (∃ c0 c1, eval_commands w ((parse_line line).cmds0, (parse_line line).cmds1)
        (parse_line line).num = Res.ret (-1, c0, c1) (emit w (Event.perror f))) ∧
    main_iter w line = Res.ret () (emit w (Event.perror f)) ∧
    (emit w (Event.perror f)).procs = w.procs ∧ (emit w (Event.perror f)).fds = w.fds ∧
    (∀ rest : List Buf, main_loop w (line :: rest)
      = main_loop (emit (emit w (Event.stdout "shell> ".toList)) (Event.perror f)) rest) := by
  obtain ⟨heval, hiter⟩ := input_open_failure_turn w line f hin hfail
  refine ⟨parse_line_cmds1_infile line, ⟨_, _, heval⟩, hiter, rfl, rfl, ?_⟩
  intro rest
  have hfail1 : (sysOpen (emit w (Event.stdout "shell> ".toList)) f [OFlag.O_RDONLY]).1
      = none := by
    rw [sysOpen_emit]
    exact hfail
  have h1 := (input_open_failure_turn (emit w (Event.stdout "shell> ".toList)) line f hin
    hfail1).2
  simp only [main_loop, h1]

/-- Witness for C3: the line `sort < nofile` in the sample state, where no
file `nofile` exists. -/
theorem main_iter_input_open_failure_witness :
    (parse_line "sort < nofile".toList).cmds1.infile = none ∧
    (∃ c0 c1, eval_commands sampleWorld ((parse_line "sort < nofile".toList).cmds0,
        (parse_line "sort < nofile".toList).cmds1) (parse_line "sort < nofile".toList).num
          = Res.ret (-1, c0, c1) (emit sampleWorld (Event.perror "nofile".toList))) ∧
    main_iter sampleWorld "sort < nofile".toList
      = Res.ret () (emit sampleWorld (Event.perror "nofile".toList)) ∧
    (emit sampleWorld (Event.perror "nofile".toList)).procs = sampleWorld.procs ∧
    (emit sampleWorld (Event.perror "nofile".toList)).fds = sampleWorld.fds ∧
    (∀ rest : List Buf, main_loop sampleWorld ("sort < nofile".toList :: rest)
      = main_loop (emit (emit sampleWorld (Event.stdout "shell> ".toList))
          (Event.perror "nofile".toList)) rest) :=
  main_iter_input_open_failure sampleWorld "sort < nofile".toList "nofile".toList
    (by decide) (by decide)

/-! ## `execute` -/

/-- C6: in the sample state the stage `cdrom`, whose program name is not a
builtin name and merely begins with `cd`, runs the `cd` branch inside the
interpreter (the test is `strncmp` on two characters): `execute` returns -1
and no child exists.  The stages `echo hi` and `dir /tmp`, whose program
names `echo` and `dir` are builtin names, are not run in the interpreter:
`execute` forks a child and returns its process id 1000; so is `about x`. -/
theorem execute_builtin_test_is_textual :
    (∃ w1, execute sampleWorld (stage "cdrom" none none) = Res.ret (-1) w1 ∧ w1.procs = [] ∧
      w1.out = [Event.perror "/home/om".toList]) ∧
    (∃ w1, execute sampleWorld (stage "echo hi" none none) = Res.ret 1000 w1 ∧
      w1.procs.map Proc.cmd = ["echo hi".toList]) ∧
    (∃ w1, execute sampleWorld (stage "dir /tmp" none none) = Res.ret 1000 w1 ∧
      w1.procs.map Proc.cmd = ["dir /tmp".toList]) ∧
    (∃ w1, execute sampleWorld (stage "about x" none none) = Res.ret 1000 w1 ∧
      w1.procs.map Proc.cmd = ["about x".toList]) :=
  ⟨⟨_, rfl, by decide, by decide⟩, ⟨_, rfl, by decide⟩, ⟨_, rfl, by decide⟩,
    ⟨_, rfl, by decide⟩⟩

/-! ## Evaluations at concrete inputs -/

/-- C4: in the sample state `/home/out.txt` holds `hello world`.  For the
line `echo hi > out.txt`, `eval_commands` opens the file on descriptor 3 and
leaves its content as it was (the flags are `O_RDWR | O_CREAT`, without
`O_TRUNC`), and so does the whole turn of the loop of `main`, which forks one
child with its output on that file; when the child writes `hi` and a newline
through the descriptor, the file holds `hi`, a newline and the old tail
`lo world`. -/
theorem output_redirection_keeps_old_content :
    (parse_line "echo hi > out.txt".toList).cmds0 = stage "echo hi" none (some "out.txt") ∧
    (∃ c0 c1 w1,
      eval_commands sampleWorld (stage "echo hi" none (some "out.txt"), c1) 1
        = Res.ret (0, c0, c1) w1 ∧
      c0.outfd = 3 ∧ fdObj w1 3 = some (FdObj.file "/home/out.txt".toList) ∧
      w1.files.lookup "/home/out.txt".toList = some "hello world\n".toList ∧
      (childWrite w1 (FdObj.file "/home/out.txt".toList) "hi\n".toList).files.lookup
        "/home/out.txt".toList = some "hi\nlo world\n".toList) ∧
    (∃ w2, main_iter sampleWorld "echo hi > out.txt".toList = Res.ret () w2 ∧
      w2.procs.map Proc.stdout = [some (FdObj.file "/home/out.txt".toList)] ∧
      w2.files.lookup "/home/out.txt".toList = some "hello world\n".toList) :=
  ⟨by decide,
    ⟨_, (parse_line "echo hi > out.txt".toList).cmds1, _, rfl,
      by decide, by decide, by decide, by decide⟩,
    ⟨_, rfl, by decide, by decide⟩⟩

/-- C5: in the sample state descriptor 3 is not open.  After the whole turn
of the loop for the line `about > f` (a builtin stage with an output file)
descriptor 3 is still open on `/home/f`; after the turn for
`ls > out.txt | wc` (two external stages, both waited for) descriptor 3 is
still open on `/home/out.txt`. -/
theorem main_iter_leaves_descriptor_open :
    fdObj sampleWorld 3 = none ∧
    (∃ w1, main_iter sampleWorld "about > f".toList = Res.ret () w1 ∧
      fdObj w1 3 = some (FdObj.file "/home/f".toList)) ∧
    (∃ w1, main_iter sampleWorld "ls > out.txt | wc".toList = Res.ret () w1 ∧
      w1.reaped = [1000, 1001] ∧
      fdObj w1 3 = some (FdObj.file "/home/out.txt".toList)) :=
  ⟨by decide, ⟨_, rfl, by decide⟩, ⟨_, rfl, by decide, by decide⟩⟩

/-- C7: in the sample state `PWD` and `cdir` are both `/home`.  After
`execute` runs `cd /tmp` (an absolute path, the directory exists) `cdir` is
`/tmp` and `PWD` is still `/home`; after it runs `cd ../tmp` (the relative
branch) both are `/tmp`. -/
theorem execute_cd_absolute_keeps_PWD :
    pwdValue sampleWorld.env = some sampleWorld.cdir ∧
    (∃ w1, execute sampleWorld (stage "cd /tmp" none none) = Res.ret (-1) w1 ∧
      w1.cwd = "/tmp".toList ∧ w1.cdir = "/tmp".toList ∧
      pwdValue w1.env = some "/home".toList ∧ pwdValue w1.env ≠ some w1.cdir) ∧
    (∃ w1, execute sampleWorld (stage "cd ../tmp" none none) = Res.ret (-1) w1 ∧
      w1.cdir = "/tmp".toList ∧ pwdValue w1.env = some w1.cdir) :=
  ⟨by decide, ⟨_, rfl, by decide, by decide, by decide, by decide⟩,
    ⟨_, rfl, by decide, by decide⟩⟩

/-- C10: for the line made of one blank, and for the line `> out`,
`parse_line` returns the count 1 with `cmds[0].cmd` null, and the turn of the
loop of `main` goes on to `execute`, which dereferences the null pointer. -/
theorem parse_line_counts_stage_without_text :
    (parse_line " ".toList).num = 1 ∧ (parse_line " ".toList).cmds0.cmd = none ∧
    main_iter sampleWorld " ".toList = Res.fault sampleWorld ∧
    (parse_line "> out".toList).num = 1 ∧ (parse_line "> out".toList).cmds0.cmd = none ∧
    (parse_line "ls | ".toList).num = 2 ∧ (parse_line "ls | ".toList).cmds1.cmd = none :=
  ⟨by decide, by decide, by decide, by decide, by decide, by decide, by decide⟩

/-! ## Buffers: reading, writing and C strings -/

theorem rd_append_right (u v : Buf) (k : Nat) : rd (u ++ v) (u.length + k) = rd v k := by
  unfold rd
  rw [List.getD_append_right _ _ _ _ (Nat.le_add_right _ _)]
  simp

theorem wr_append_right (u v : Buf) (k : Nat) (c : Char) :
    wr (u ++ v) (u.length + k) c = u ++ wr v k c := by
  unfold wr
  rw [List.set_append_right _ _ (Nat.le_add_right _ _)]
  simp

theorem cstr_append_right (u v : Buf) (k : Nat) : cstr (u ++ v) (u.length + k) = cstr v k := by
  unfold cstr
  rw [List.drop_append]

theorem rd_zero_cons (c : Char) (v : Buf) : rd (c :: v) 0 = c := rfl

theorem takeWhile_stop (q : Char → Bool) (v : Buf) (h : rd v 0 = NUL) :
    v.takeWhile (fun c => c != NUL && q c) = [] := by
  cases v with
  | nil => rfl
  | cons c v =>
    rw [rd_zero_cons] at h
    subst h
    simp

theorem takeWhile_run (q : Char → Bool) (s v : Buf) (hs : ∀ c ∈ s, c ≠ NUL ∧ q c = true)
    (hv : v.takeWhile (fun c => c != NUL && q c) = []) :
    (s ++ v).takeWhile (fun c => c != NUL && q c) = s := by
  rw [List.takeWhile_append_of_pos, hv, List.append_nil]
  intro c hc
  have := hs c hc
  simp [this.1, this.2]

theorem cstr_zero (s v : Buf) (hs : ∀ c ∈ s, c ≠ NUL) (hv : rd v 0 = NUL) :
    cstr (s ++ v) 0 = s := by
  unfold cstr
  have h1 := takeWhile_stop (fun _ => true) v hv
  have h2 := takeWhile_run (fun _ => true) s v (fun c hc => ⟨hs c hc, rfl⟩) h1
  simpa using h2

theorem cstr_at (x s v : Buf) (hs : ∀ c ∈ s, c ≠ NUL) (hv : rd v 0 = NUL) :
    cstr (x ++ (s ++ v)) x.length = s := by
  have := cstr_append_right x (s ++ v) 0
  rw [Nat.add_zero] at this
  rw [this, cstr_zero s v hs hv]

theorem rd_at (x v : Buf) : rd (x ++ v) x.length = rd v 0 := by
  have := rd_append_right x v 0
  rwa [Nat.add_zero] at this

theorem wr_at (x v : Buf) (c : Char) : wr (x ++ v) x.length c = x ++ wr v 0 c := by
  have := wr_append_right x v 0 c
  rwa [Nat.add_zero] at this

/-- Every buffer splits into its C string and a remainder that reads as
terminated. -/
theorem buf_split (b : Buf) :
    (∀ c ∈ cstr b 0, c ≠ NUL) ∧ rd (b.drop (cstr b 0).length) 0 = NUL ∧
      b = cstr b 0 ++ b.drop (cstr b 0).length := by
  unfold cstr
  simp only [List.drop_zero]
  refine ⟨?_, ?_, ?_⟩
  · intro c hc
    have := List.mem_takeWhile_imp hc
    simpa using this
  · induction b with
    | nil => rfl
    | cons a b ih =>
      by_cases ha : a = NUL
      · subst ha
        simp [rd_zero_cons]
      · have : (a != NUL) = true := by simpa using ha
        rw [List.takeWhile_cons, if_pos this]
        simpa using ih
  · induction b with
    | nil => rfl
    | cons a b ih =>
      by_cases ha : a = NUL
      · subst ha
        simp
      · have : (a != NUL) = true := by simpa using ha
        rw [List.takeWhile_cons, if_pos this]
        simp only [List.length_cons, List.drop_succ_cons, List.cons_append]
        rw [← ih]

/-! ## `strtok` -/

theorem strspn_eq (x s z : Buf) (delim : List Char)
    (hs : ∀ c ∈ s, c ≠ NUL ∧ c ∈ delim)
    (hz : z.takeWhile (fun c => c != NUL && delim.contains c) = []) :
    strspn (x ++ (s ++ z)) x.length delim = s.length := by
  unfold strspn
  rw [List.drop_left, takeWhile_run (fun c => delim.contains c) s z
    (fun c hc => by simpa using hs c hc) hz]

theorem strcspn_eq (x s z : Buf) (delim : List Char)
    (hs : ∀ c ∈ s, c ≠ NUL ∧ c ∉ delim)
    (hz : z.takeWhile (fun c => c != NUL && !delim.contains c) = []) :
    strcspn (x ++ (s ++ z)) x.length delim = s.length := by
  unfold strcspn
  rw [List.drop_left]
  exact congrArg List.length
    (takeWhile_run (fun c => !delim.contains c) s z (fun c hc => by simpa using hs c hc) hz)

/-- `strtok` on a string made of delimiters only: no token. -/
theorem strtok_none (x r v : Buf) (delim : List Char)
    (hr : ∀ c ∈ r, c ≠ NUL ∧ c ∈ delim) (hv : rd v 0 = NUL) :
    strtok (x ++ (r ++ v)) x.length delim = (none, x ++ (r ++ v), x.length + r.length) := by
  unfold strtok
  have h1 := strspn_eq x r v delim hr (takeWhile_stop _ v hv)
  simp only [h1]
  have h2 : rd (x ++ (r ++ v)) (x.length + r.length) = NUL := by
    rw [rd_append_right, rd_at, hv]
  rw [if_pos h2]

/-- `strtok` on delimiters `pre`, then a token `tok` that reaches the end of
the string: the token is returned and the buffer is not written. -/
theorem strtok_last (x pre tok v : Buf) (delim : List Char)
    (hpre : ∀ c ∈ pre, c ≠ NUL ∧ c ∈ delim)
    (htok : ∀ c ∈ tok, c ≠ NUL ∧ c ∉ delim) (hne : tok ≠ [])
    (hv : rd v 0 = NUL) :
    strtok (x ++ (pre ++ (tok ++ v))) x.length delim
      = (some (x.length + pre.length), x ++ (pre ++ (tok ++ v)),
          x.length + pre.length + tok.length) := by
  obtain ⟨t, tok1, rfl⟩ := List.exists_cons_of_ne_nil hne
  have ht := htok t (List.mem_cons_self _ _)
  unfold strtok
  have h1 := strspn_eq x pre ((t :: tok1) ++ v) delim hpre (by simp [ht.1, ht.2])
  have h2 := strcspn_eq (x ++ pre) (t :: tok1) v delim htok (takeWhile_stop _ v hv)
  rw [List.append_assoc, List.length_append] at h2
  simp only [h1, h2]
  have h3 : rd (x ++ (pre ++ ((t :: tok1) ++ v))) (x.length + pre.length) = t := by
    rw [rd_append_right, rd_at]
    rfl
  have h4 : rd (x ++ (pre ++ ((t :: tok1) ++ v))) (x.length + pre.length + (t :: tok1).length)
      = NUL := by
    rw [Nat.add_assoc, rd_append_right, rd_append_right, rd_at, hv]
  rw [h3, if_neg ht.1, h4, if_pos rfl]

/-- `strtok` on delimiters `pre`, then a token `tok` followed by a delimiter
`d`: the token is returned, the delimiter is overwritten with the terminator
and the save pointer is put behind it. -/
theorem strtok_mid (x pre tok post : Buf) (d : Char) (delim : List Char)
    (hpre : ∀ c ∈ pre, c ≠ NUL ∧ c ∈ delim)
    (htok : ∀ c ∈ tok, c ≠ NUL ∧ c ∉ delim) (hne : tok ≠ [])
    (hd : d ≠ NUL ∧ d ∈ delim) :
    strtok (x ++ (pre ++ (tok ++ d :: post))) x.length delim
      = (some (x.length + pre.length), x ++ (pre ++ (tok ++ NUL :: post)),
          x.length + pre.length + tok.length + 1) := by
  obtain ⟨t, tok1, rfl⟩ := List.exists_cons_of_ne_nil hne
  have ht := htok t (List.mem_cons_self _ _)
  unfold strtok
  have h1 := strspn_eq x pre ((t :: tok1) ++ d :: post) delim hpre (by simp [ht.1, ht.2])
  have h2 := strcspn_eq (x ++ pre) (t :: tok1) (d :: post) delim htok (by simp [hd.1, hd.2])
  rw [List.append_assoc, List.length_append] at h2
  simp only [h1, h2]
  have h3 : rd (x ++ (pre ++ ((t :: tok1) ++ d :: post))) (x.length + pre.length) = t := by
    rw [rd_append_right, rd_at]
    rfl
  have h4 : rd (x ++ (pre ++ ((t :: tok1) ++ d :: post)))
      (x.length + pre.length + (t :: tok1).length) = d := by
    rw [Nat.add_assoc, rd_append_right, rd_append_right, rd_at]
    rfl
  have h5 : wr (x ++ (pre ++ ((t :: tok1) ++ d :: post)))
      (x.length + pre.length + (t :: tok1).length) NUL
        = x ++ (pre ++ ((t :: tok1) ++ NUL :: post)) := by
    rw [Nat.add_assoc, wr_append_right, wr_append_right, wr_at]
    rfl
  rw [h3, if_neg ht.1, h4, if_neg hd.1, h5]

/-! ## Segments of a line -/

theorem pipeSegments_nil : pipeSegments [] = [] := rfl

theorem pipeSegments_delims (pre s : List Char) (hpre : ∀ c ∈ pre, c = '|') :
    pipeSegments (pre ++ s) = pipeSegments s := by
  induction pre with
  | nil => rfl
  | cons c pre ih =>
    have hc : c = '|' := hpre c (List.mem_cons_self _ _)
    have ih1 := ih (fun d hd => hpre d (List.mem_cons_of_mem _ hd))
    subst hc
    unfold pipeSegments at ih1 ⊢
    unfold List.splitOn at ih1 ⊢
    rw [List.cons_append, List.splitOnP_cons]
    simpa using ih1

theorem pipeSegments_single (tok : List Char) (hne : tok ≠ []) (htok : '|' ∉ tok) :
    pipeSegments tok = [tok] := by
  unfold pipeSegments List.splitOn
  rw [List.splitOnP_eq_single]
  · cases tok with
    | nil => exact absurd rfl hne
    | cons a t => rfl
  · intro x hx
    simp only [beq_iff_eq]
    rintro rfl
    exact htok hx

theorem pipeSegments_cons (tok post : List Char) (hne : tok ≠ []) (htok : '|' ∉ tok) :
    pipeSegments (tok ++ '|' :: post) = tok :: pipeSegments post := by
  unfold pipeSegments List.splitOn
  rw [List.splitOnP_first]
  · cases tok with
    | nil => exact absurd rfl hne
    | cons a t => rfl
  · intro x hx
    simp only [beq_iff_eq]
    rintro rfl
    exact htok hx
  · rfl

/-- A text is made of `|` only, or it is a run of `|`, a non-empty segment,
and then either the end or a `|` and the rest. -/
theorem split_token (r : List Char) :
    (∀ c ∈ r, c = '|') ∨
    ∃ pre tok, (∀ c ∈ pre, c = '|') ∧ tok ≠ [] ∧ '|' ∉ tok ∧
      (r = pre ++ tok ∨ ∃ post, r = pre ++ (tok ++ '|' :: post)) := by
  induction r with
  | nil => exact Or.inl (fun c hc => absurd hc (List.not_mem_nil c))
  | cons a r ih =>
    by_cases ha : a = '|'
    · subst ha
      rcases ih with h | ⟨pre, tok, h1, h2, h3, h4⟩
      · left
        intro c hc
        rcases List.mem_cons.1 hc with rfl | hc
        · rfl
        · exact h c hc
      · right
        refine ⟨'|' :: pre, tok, ?_, h2, h3, ?_⟩
        · intro c hc
          rcases List.mem_cons.1 hc with rfl | hc
          · rfl
          · exact h1 c hc
        · rcases h4 with rfl | ⟨post, rfl⟩
          · exact Or.inl rfl
          · exact Or.inr ⟨post, rfl⟩
    · right
      rcases ih with h | ⟨pre, tok, h1, h2, h3, h4⟩
      · cases r with
        | nil => exact ⟨[], [a], by simp, by simp, by simpa using Ne.symm ha, Or.inl rfl⟩
        | cons b r =>
          have hb : b = '|' := h b (List.mem_cons_self _ _)
          subst hb
          exact ⟨[], [a], by simp, by simp, by simpa using Ne.symm ha, Or.inr ⟨r, rfl⟩⟩
      · cases pre with
        | nil =>
          refine ⟨[], a :: tok, by simp, by simp, ?_, ?_⟩
          · simp only [List.mem_cons, not_or]
            exact ⟨Ne.symm ha, h3⟩
          · rcases h4 with rfl | ⟨post, rfl⟩
            · exact Or.inl rfl
            · exact Or.inr ⟨post, rfl⟩
        | cons b pre =>
          have hb : b = '|' := h1 b (List.mem_cons_self _ _)
          subst hb
          refine ⟨[], [a], by simp, by simp, by simpa using Ne.symm ha, Or.inr ⟨r.tail, ?_⟩⟩
          rcases h4 with rfl | ⟨post, rfl⟩ <;> rfl

theorem bar_ne_nul : '|' ≠ NUL := by decide

/-- The three ways a `strtok` call on `|` can go, with the segments of the
string it scans. -/
theorem strtok_cases (x r v : Buf) (hr : ∀ c ∈ r, c ≠ NUL) (hv : rd v 0 = NUL) :
    (strtok (x ++ (r ++ v)) x.length ['|'] = (none, x ++ (r ++ v), x.length + r.length) ∧
      pipeSegments r = []) ∨
    (∃ pre tok, r = pre ++ tok ∧ tok ≠ [] ∧ (∀ c ∈ tok, c ≠ NUL) ∧
      strtok (x ++ (r ++ v)) x.length ['|']
        = (some (x.length + pre.length), x ++ (pre ++ (tok ++ v)),
            x.length + pre.length + tok.length) ∧
      pipeSegments r = [tok]) ∨
    (∃ pre tok post, r = pre ++ (tok ++ '|' :: post) ∧ tok ≠ [] ∧ (∀ c ∈ tok, c ≠ NUL) ∧
      (∀ c ∈ post, c ≠ NUL) ∧
      strtok (x ++ (r ++ v)) x.length ['|']
        = (some (x.length + pre.length), x ++ (pre ++ (tok ++ NUL :: (post ++ v))),
            x.length + pre.length + tok.length + 1) ∧
      pipeSegments r = tok :: pipeSegments post) := by
  rcases split_token r with h | ⟨pre, tok, hpre, hne, htok, h⟩
  · left
    refine ⟨strtok_none x r v ['|'] (fun c hc => ⟨hr c hc, by simp [h c hc]⟩) hv, ?_⟩
    have := pipeSegments_delims r [] h
    rwa [List.append_nil, pipeSegments_nil] at this
  · have hpre1 : ∀ c ∈ pre, c ≠ NUL ∧ c ∈ ['|'] :=
      fun c hc => ⟨by rw [hpre c hc]; exact bar_ne_nul, by simp [hpre c hc]⟩
    rcases h with rfl | ⟨post, rfl⟩
    · right; left
      have htok1 : ∀ c ∈ tok, c ≠ NUL ∧ c ∉ ['|'] := by
        intro c hc
        refine ⟨hr c (List.mem_append_right _ hc), ?_⟩
        simp only [List.mem_singleton]
        rintro rfl
        exact htok hc
      refine ⟨pre, tok, rfl, hne, fun c hc => (htok1 c hc).1, ?_, ?_⟩
      · rw [List.append_assoc]
        exact strtok_last x pre tok v ['|'] hpre1 htok1 hne hv
      · rw [pipeSegments_delims pre tok hpre, pipeSegments_single tok hne htok]
    · right; right
      have htok1 : ∀ c ∈ tok, c ≠ NUL ∧ c ∉ ['|'] := by
        intro c hc
        refine ⟨hr c (List.mem_append_right _ (List.mem_append_left _ hc)), ?_⟩
        simp only [List.mem_singleton]
        rintro rfl
        exact htok hc
      have hpost : ∀ c ∈ post, c ≠ NUL := fun c hc =>
        hr c (List.mem_append_right _ (List.mem_append_right _ (List.mem_cons_of_mem _ hc)))
      refine ⟨pre, tok, post, rfl, hne, fun c hc => (htok1 c hc).1, hpost, ?_, ?_⟩
      · have := strtok_mid x pre tok (post ++ v) '|' ['|'] hpre1 htok1 hne
          ⟨bar_ne_nul, by simp⟩
        simpa [List.append_assoc] using this
      · rw [pipeSegments_delims pre _ hpre, pipeSegments_cons tok post hne htok]

theorem rd_nul_cons (z : Buf) : rd (NUL :: z) 0 = NUL := rfl

/-- The two `strtok` calls of `parse_line` against the segments of the
line. -/
theorem tokens_cases (r v : Buf) (hr : ∀ c ∈ r, c ≠ NUL) (hv : rd v 0 = NUL) :
    (∃ b, tokens (r ++ v) = (b, none, none) ∧ pipeSegments r = []) ∨
    (∃ b p tok, tokens (r ++ v) = (b, some p, none) ∧ cstr b p = tok ∧
      pipeSegments r = [tok]) ∨
    (∃ b p q tok tok2 rest, tokens (r ++ v) = (b, some p, some q) ∧ cstr b p = tok ∧
      cstr b q = tok2 ∧ pipeSegments r = tok :: tok2 :: rest) := by
  have hnil : ∀ (x : Buf), strtok (x ++ v) x.length ['|'] = (none, x ++ v, x.length) := by
    intro x
    have := strtok_none x [] v ['|'] (by simp) hv
    simpa using this
  rcases strtok_cases [] r v hr hv with ⟨h0, hs⟩ | ⟨pre, tok, rfl, hne, htok, h0, hs⟩ |
      ⟨pre, tok, post, rfl, hne, htok, hpost, h0, hs⟩
  · left
    simp only [List.nil_append, List.length_nil, Nat.zero_add] at h0
    refine ⟨r ++ v, ?_, hs⟩
    have h1 := hnil r
    simp only [tokens, h0, h1]
  · right; left
    simp only [List.nil_append, List.length_nil, Nat.zero_add] at h0
    refine ⟨pre ++ (tok ++ v), pre.length, tok, ?_, cstr_at pre tok v htok hv, hs⟩
    have h2 := hnil (pre ++ tok)
    rw [List.append_assoc, List.length_append] at h2
    simp only [tokens, h0, h2]
  · simp only [List.nil_append, List.length_nil, Nat.zero_add] at h0
    have hlen : (pre ++ (tok ++ [NUL])).length = pre.length + tok.length + 1 := by
      simp [Nat.add_assoc]
    have hb : pre ++ (tok ++ NUL :: (post ++ v)) = (pre ++ (tok ++ [NUL])) ++ (post ++ v) := by
      simp
    rw [hb, ← hlen] at h0
    rcases strtok_cases (pre ++ (tok ++ [NUL])) post v hpost hv with
      ⟨h1, hs1⟩ | ⟨pre2, tok2, rfl, hne2, htok2, h1, hs1⟩ |
        ⟨pre2, tok2, post2, rfl, hne2, htok2, hpost2, h1, hs1⟩
    · -- there is no second token
      right; left
      refine ⟨pre ++ (tok ++ [NUL]) ++ (post ++ v), pre.length, tok, ?_, ?_, by rw [hs, hs1]⟩
      · simp only [tokens, h0, h1]
      · rw [← hb]
        exact cstr_at pre tok (NUL :: (post ++ v)) htok (rd_nul_cons _)
    · -- the second token ends the line
      right; right
      refine ⟨pre ++ (tok ++ [NUL]) ++ (pre2 ++ (tok2 ++ v)), pre.length,
        (pre ++ (tok ++ [NUL])).length + pre2.length, tok, tok2, [], ?_, ?_, ?_,
        by rw [hs, hs1]⟩
      · simp only [tokens, h0, h1]
      · have := cstr_at pre tok (NUL :: (pre2 ++ (tok2 ++ v))) htok (rd_nul_cons _)
        simpa using this
      · have := cstr_at ((pre ++ (tok ++ [NUL])) ++ pre2) tok2 v htok2 hv
        simpa [Nat.add_assoc, Nat.add_comm, Nat.add_left_comm] using this
    · -- the second token is followed by a separator
      right; right
      refine ⟨pre ++ (tok ++ [NUL]) ++ (pre2 ++ (tok2 ++ NUL :: (post2 ++ v))), pre.length,
        (pre ++ (tok ++ [NUL])).length + pre2.length, tok, tok2, pipeSegments post2, ?_, ?_, ?_,
        by rw [hs, hs1]⟩
      · simp only [tokens, h0, h1]
      · have := cstr_at pre tok (NUL :: (pre2 ++ (tok2 ++ NUL :: (post2 ++ v)))) htok
          (rd_nul_cons _)
        simpa using this
      · have := cstr_at ((pre ++ (tok ++ [NUL])) ++ pre2) tok2 (NUL :: (post2 ++ v)) htok2
          (rd_nul_cons _)
        simpa [Nat.add_assoc, Nat.add_comm, Nat.add_left_comm] using this

theorem parse_line_num (line : Buf) :
    (parse_line line).num
      = (tokens line).2.1.toList.length + (tokens line).2.2.toList.length := by
  cases h0 : (tokens line).2.1 <;> cases h1 : (tokens line).2.2 <;>
    simp [parse_line, parse_token0, parse_token1, h0, h1]

/-- C9: the count `parse_line` returns is the number of non-empty maximal
`|`-free segments of the line, capped at 2; the stage texts it works on are
the first two such segments, in their order (further segments are dropped);
a non-empty line without `|` gives the count 1. -/
theorem parse_line_count_segments (line : Buf) :
    (parse_line line).num = min 2 (pipeSegments (cstr line 0)).length ∧
    stage_texts line = (pipeSegments (cstr line 0)).take 2 ∧
    (cstr line 0 ≠ [] → '|' ∉ cstr line 0 → (parse_line line).num = 1) := by
  obtain ⟨hr, hv, hl⟩ := buf_split line
  have hcases := tokens_cases (cstr line 0) (line.drop (cstr line 0).length) hr hv
  rw [← hl] at hcases
  have key : (parse_line line).num = min 2 (pipeSegments (cstr line 0)).length ∧
      stage_texts line = (pipeSegments (cstr line 0)).take 2 := by
    rw [parse_line_num]
    unfold stage_texts
    rcases hcases with ⟨b, ht, hs⟩ | ⟨b, p, tok, ht, hc, hs⟩ |
        ⟨b, p, q, tok, tok2, rest, ht, hc, hc2, hs⟩
    · rw [ht, hs]
      exact ⟨rfl, rfl⟩
    · rw [ht, hs]
      simp only [Option.map_some', Option.map_none', Option.toList_some, Option.toList_none, hc]
      exact ⟨rfl, rfl⟩
    · rw [ht, hs]
      simp only [Option.map_some', Option.toList_some, hc, hc2]
      refine ⟨?_, rfl⟩
      simp
  refine ⟨key.1, key.2, ?_⟩
  intro hne hbar
  rw [key.1, pipeSegments_single _ hne hbar]
  rfl

/-- Witness for C9: the line `ls -l`. -/
theorem parse_line_count_segments_witness :
    (parse_line "ls -l".toList).num = min 2 (pipeSegments (cstr "ls -l".toList 0)).length ∧
    stage_texts "ls -l".toList = (pipeSegments (cstr "ls -l".toList 0)).take 2 ∧
    (cstr "ls -l".toList 0 ≠ [] → '|' ∉ cstr "ls -l".toList 0 →
      (parse_line "ls -l".toList).num = 1) :=
  parse_line_count_segments "ls -l".toList

/-! ## The scan of `token[0]` -/

theorem scan0_spec (tok : Nat) (s : List Char) :
    ∀ (fuel i : Nat) (x z : Buf) (c : Ptrs), x.length = tok + i → (∀ ch ∈ s, ch ≠ NUL) →
      rd z 0 = NUL → s.length ≤ fuel →
      scan0 tok fuel i (x ++ (s ++ z)) c = (x ++ (s.map blankOp ++ z), scanPtrs tok (tok + i) s c) := by
  induction s with
  | nil =>
    intro fuel i x z c hx _ hz _
    cases fuel with
    | zero => rfl
    | succ n =>
      unfold scan0
      have : rd (x ++ ([] ++ z)) (tok + i) = NUL := by
        rw [← hx, List.nil_append, rd_at, hz]
      rw [if_pos this]
      rfl
  | cons ch s ih =>
    intro fuel i x z c hx hs hz hfuel
    cases fuel with
    | zero => simp at hfuel
    | succ n =>
      have hch : ch ≠ NUL := hs ch (List.mem_cons_self _ _)
      have hrd : rd (x ++ (ch :: s ++ z)) (tok + i) = ch := by
        rw [← hx, rd_at]
        rfl
      have hwr : wr (x ++ (ch :: s ++ z)) (tok + i) NUL = x ++ (NUL :: s ++ z) := by
        rw [← hx, wr_at]
        rfl
      have hrd2 : rd (x ++ (NUL :: s ++ z)) (tok + i) = NUL := by
        rw [← hx, rd_at]
        rfl
      have hnext := ih n (i + 1) (x ++ [blankOp ch]) z
      have hlen : (x ++ [blankOp ch]).length = tok + (i + 1) := by
        rw [List.length_append, hx]
        rfl
      have hs' : ∀ d ∈ s, d ≠ NUL := fun d hd => hs d (List.mem_cons_of_mem _ hd)
      have hfuel' : s.length ≤ n := by
        simpa using hfuel
      unfold scan0
      rw [hrd, if_neg hch]
      simp only
      by_cases h1 : ch = '<'
      · subst h1
        simp only [if_true, hwr, hrd2]
        have hne : ¬ (NUL = '>') := by decide
        rw [if_neg hne]
        have := hnext { cmd := some tok, infile := some (tok + i + 1), outfile := c.outfile }
          hlen hs' hz hfuel'
        simpa [blankOp, scanPtrs, Nat.add_assoc] using this
      · rw [if_neg h1]
        simp only [hrd]
        by_cases h2 : ch = '>'
        · subst h2
          simp only [if_true, hwr]
          have := hnext { cmd := some tok, infile := c.infile, outfile := some (tok + i + 1) }
            hlen hs' hz hfuel'
          simpa [blankOp, scanPtrs, Nat.add_assoc] using this
        · rw [if_neg h2]
          have := hnext { cmd := some tok, infile := c.infile, outfile := c.outfile }
            hlen hs' hz hfuel'
          simpa [blankOp, scanPtrs, Nat.add_assoc, h1, h2] using this

/-! ## `trimSpace` -/

theorem trimSpace_first_spec (p : Nat) (s : List Char) :
    ∀ (fuel i : Nat) (x z : Buf), x.length = p + i → (∀ ch ∈ s, ch ≠ NUL) → rd z 0 = NUL →
      s.length ≤ fuel →
      trimSpace_first (x ++ (s ++ z)) p fuel i
        = if s.all (fun c => c == ' ') then none
          else some (p + i + (s.takeWhile (fun c => c == ' ')).length) := by
  induction s with
  | nil =>
    intro fuel i x z hx _ hz _
    cases fuel with
    | zero => rfl
    | succ n =>
      unfold trimSpace_first
      have : rd (x ++ ([] ++ z)) (p + i) = NUL := by
        rw [← hx, List.nil_append, rd_at, hz]
      rw [if_pos this]
      rfl
  | cons ch s ih =>
    intro fuel i x z hx hs hz hfuel
    cases fuel with
    | zero => simp at hfuel
    | succ n =>
      have hch : ch ≠ NUL := hs ch (List.mem_cons_self _ _)
      have hrd : rd (x ++ (ch :: s ++ z)) (p + i) = ch := by
        rw [← hx, rd_at]
        rfl
      unfold trimSpace_first
      rw [hrd, if_neg hch]
      by_cases hb : ch = ' '
      · subst hb
        have hlen : (x ++ [' ']).length = p + (i + 1) := by
          rw [List.length_append, hx]
          rfl
        have := ih n (i + 1) (x ++ [' ']) z hlen
          (fun d hd => hs d (List.mem_cons_of_mem _ hd)) hz (by simpa using hfuel)
        simp only [List.append_assoc, List.singleton_append] at this
        simp only [ne_eq, not_true_eq_false, if_false, List.cons_append]
        rw [this]
        simp [Nat.add_assoc, Nat.add_comm, Nat.add_left_comm]
      · rw [if_pos hb]
        simp [hb]

theorem trimSpace_last_spec (x : Buf) (s : List Char) :
    ∀ z : Buf, trimSpace_last (x ++ (s ++ z)) x.length s.length
      = if s.all (fun c => c == ' ') then x ++ (s ++ z)
        else x ++ (s.rdropWhile (fun c => c == ' ') ++
          wr (s.drop (s.rdropWhile (fun c => c == ' ')).length ++ z) 0 NUL) := by
  induction s using List.reverseRecOn with
  | nil =>
    intro z
    rfl
  | append_singleton s0 c ih =>
    intro z
    have hrd : rd (x ++ (s0 ++ [c] ++ z)) (x.length + s0.length) = c := by
      rw [rd_append_right, List.append_assoc, rd_at]
      rfl
    rw [List.length_append, List.length_singleton]
    unfold trimSpace_last
    rw [hrd]
    by_cases hb : c = ' '
    · subst hb
      simp only [ne_eq, not_true_eq_false, if_false]
      have := ih (' ' :: z)
      simp only [List.append_assoc, List.singleton_append] at this ⊢
      rw [this]
      have hle : (List.rdropWhile (fun c => c == ' ') s0).length ≤ s0.length :=
        (List.rdropWhile_prefix (fun c => c == ' ') s0).length_le
      have hdrop : List.drop (List.rdropWhile (fun c => c == ' ') s0).length (s0 ++ ' ' :: z)
          = List.drop (List.rdropWhile (fun c => c == ' ') s0).length s0 ++ ' ' :: z :=
        List.drop_append_of_le_length hle
      have hr : List.rdropWhile (fun c => c == ' ') (s0 ++ [' '])
          = List.rdropWhile (fun c => c == ' ') s0 :=
        List.rdropWhile_concat_pos _ _ _ (by simp)
      have hdrop2 : List.drop (List.rdropWhile (fun c => c == ' ') s0).length (s0 ++ [' '])
          = List.drop (List.rdropWhile (fun c => c == ' ') s0).length s0 ++ [' '] :=
        List.drop_append_of_le_length hle
      have hall : (s0 ++ [' ']).all (fun c => c == ' ') = s0.all (fun c => c == ' ') := by
        simp
      rw [hr, hdrop2, hall]
      simp only [List.append_assoc, List.singleton_append]
    · rw [if_pos hb]
      have hall : (s0 ++ [c]).all (fun c => c == ' ') = false := by
        simp [hb]
      have hr : List.rdropWhile (fun c => c == ' ') (s0 ++ [c]) = s0 ++ [c] :=
        List.rdropWhile_concat_neg _ _ _ (by simpa using hb)
      rw [hall, hr]
      simp only [Bool.false_eq_true, if_false, List.drop_length, List.nil_append]
      rw [Nat.add_assoc, wr_append_right]
      have := wr_at (s0 ++ [c]) z NUL
      rw [List.length_append, List.length_singleton] at this
      rw [this]

theorem wr_zero_pad (rest z : Buf) (hz : rd z 0 = NUL) :
    wr (rest ++ z) 0 NUL = padTail rest ++ z := by
  cases rest with
  | nil =>
    cases z with
    | nil => rfl
    | cons a z =>
      rw [rd_zero_cons] at hz
      subst hz
      rfl
  | cons a t => rfl

/-- `trimSpace` on the string `s` in the buffer, in one step. -/
theorem trimSpace_spec (x s z : Buf) (hs : ∀ ch ∈ s, ch ≠ NUL) (hz : rd z 0 = NUL) :
    trimSpace (x ++ (s ++ z)) x.length
      = (x ++ (trimInPlace s ++ z),
          if s.all (fun c => c == ' ') then none
          else some (x.length + (s.takeWhile (fun c => c == ' ')).length)) := by
  unfold trimSpace
  have h1 := trimSpace_first_spec x.length s ((x ++ (s ++ z)).length + 1) 0 x z rfl hs hz
    (by simp only [List.length_append]; omega)
  have h2 : strlen (x ++ (s ++ z)) x.length = s.length := by
    unfold strlen
    rw [cstr_at x s z hs hz]
  simp only [h1, h2, trimSpace_last_spec, Nat.add_zero]
  unfold trimInPlace
  by_cases hall : s.all (fun c => c == ' ') = true
  · simp only [hall, if_true]
  · simp only [hall, Bool.false_eq_true, if_false, List.append_assoc]
    rw [wr_zero_pad _ z hz]

theorem rdropWhile_append_of_exists (p : Char → Bool) (l d : List Char)
    (h : ∃ c ∈ d, p c = false) :
    (l ++ d).rdropWhile p = l ++ d.rdropWhile p := by
  induction d using List.reverseRecOn with
  | nil =>
    obtain ⟨c, hc, _⟩ := h
    exact absurd hc (List.not_mem_nil c)
  | append_singleton d0 c ih =>
    rw [← List.append_assoc, List.rdropWhile_concat, List.rdropWhile_concat]
    by_cases hc : p c = true
    · rw [if_pos hc, if_pos hc]
      apply ih
      obtain ⟨e, he, hpe⟩ := h
      rcases List.mem_append.1 he with he | he
      · exact ⟨e, he, hpe⟩
      · rw [List.mem_singleton] at he
        subst he
        rw [hc] at hpe
        exact absurd hpe (by simp)
    · rw [if_neg hc, if_neg hc, List.append_assoc]

/-- A text that is not all blanks: leading blanks, the trimmed text, and
trailing blanks. -/
theorem rdropWhile_eq_lead_trim (s : List Char) (h : s.all (fun c => c == ' ') = false) :
    s.rdropWhile (fun c => c == ' ')
      = s.takeWhile (fun c => c == ' ') ++ trimBlanks s := by
  unfold trimBlanks
  have hs := List.takeWhile_append_dropWhile (fun c => c == ' ') s
  have hex : ∃ c ∈ s.dropWhile (fun c => c == ' '), (fun c => c == ' ') c = false := by
    have hne : s.dropWhile (fun c => c == ' ') ≠ [] := by
      intro hnil
      rw [List.dropWhile_eq_nil_iff] at hnil
      have : s.all (fun c => c == ' ') = true := List.all_eq_true.2 hnil
      rw [this] at h
      exact absurd h (by simp)
    obtain ⟨a, t, hat⟩ := List.exists_cons_of_ne_nil hne
    refine ⟨a, by rw [hat]; exact List.mem_cons_self _ _, ?_⟩
    have := List.head?_dropWhile_not (fun c => c == ' ') s
    rw [hat] at this
    simpa using this
  conv_lhs => rw [← hs]
  exact rdropWhile_append_of_exists _ _ _ hex

theorem trimBlanks_mem (s : List Char) (c : Char) (h : c ∈ trimBlanks s) : c ∈ s := by
  unfold trimBlanks at h
  have h1 := (List.rdropWhile_prefix (fun c => c == ' ')
    (s.dropWhile (fun c => c == ' '))).subset h
  exact (List.dropWhile_suffix _).subset h1

/-- Reading the string `trimSpace` returned. -/
theorem cstr_trimInPlace (x s z : Buf) (hs : ∀ ch ∈ s, ch ≠ NUL) (hz : rd z 0 = NUL)
    (h : s.all (fun c => c == ' ') = false) :
    cstr (x ++ (trimInPlace s ++ z)) (x.length + (s.takeWhile (fun c => c == ' ')).length)
      = trimBlanks s := by
  unfold trimInPlace
  simp only [h, Bool.false_eq_true, if_false]
  rw [rdropWhile_eq_lead_trim s h]
  have hpad : ∀ rest : List Char, rd (padTail rest ++ z) 0 = NUL := by
    intro rest
    cases rest with
    | nil => exact hz
    | cons a t => rfl
  have := cstr_at (x ++ s.takeWhile (fun c => c == ' ')) (trimBlanks s)
    (padTail (s.drop (s.takeWhile (fun c => c == ' ') ++ trimBlanks s).length) ++ z)
    (fun c hc => hs c (trimBlanks_mem s c hc)) (hpad _)
  simpa [List.append_assoc] using this

theorem trimInPlace_length (s : List Char) : (trimInPlace s).length = s.length := by
  unfold trimInPlace
  split_ifs with h
  · rfl
  · have hp := List.rdropWhile_prefix (fun c => c == ' ') s
    obtain ⟨t, ht⟩ := hp
    have hd : s.drop (s.rdropWhile (fun c => c == ' ')).length = t := by
      have : (s.rdropWhile (fun c => c == ' ') ++ t).drop
          (s.rdropWhile (fun c => c == ' ')).length = t := List.drop_left _ _
      rwa [ht] at this
    rw [hd]
    have hlen : s.length = (s.rdropWhile (fun c => c == ' ')).length + t.length := by
      have := congrArg List.length ht
      rw [List.length_append] at this
      exact this.symm
    rw [List.length_append, hlen]
    cases t <;> rfl

/-! ## What the work on stage 1 leaves untouched -/

theorem wr_take (b : Buf) (i n : Nat) (c : Char) (h : n ≤ i) :
    (wr b i c).take n = b.take n := by
  unfold wr
  rw [List.set_take]
  exact List.set_eq_of_length_le (by rw [List.length_take]; omega)

theorem wr_length (b : Buf) (i : Nat) (c : Char) : (wr b i c).length = b.length := by
  unfold wr
  exact List.length_set _ _ _

theorem take_of_take {b b1 : Buf} {n m : Nat} (h : b1.take n = b.take n) (hm : m ≤ n) :
    b1.take m = b.take m := by
  have := congrArg (List.take m) h
  rwa [List.take_take, List.take_take, Nat.min_eq_left hm] at this

theorem scan1_frame (tok : Nat) :
    ∀ (fuel j : Nat) (b : Buf) (c : Ptrs),
      (scan1 tok fuel j b c).1.take tok = b.take tok ∧
      (scan1 tok fuel j b c).1.length = b.length := by
  intro fuel
  induction fuel with
  | zero =>
    intro j b c
    exact ⟨rfl, rfl⟩
  | succ n ih =>
    intro j b c
    unfold scan1
    split_ifs with h1 h2
    · exact ⟨rfl, rfl⟩
    · simp only
      obtain ⟨e1, e2⟩ := ih (j + 1) (wr b (tok + j) NUL)
        { cmd := some tok, infile := c.infile, outfile := some (tok + j + 1) }
      exact ⟨e1.trans (wr_take b _ _ _ (Nat.le_add_right _ _)), e2.trans (wr_length _ _ _)⟩
    · simp only
      exact ih (j + 1) b _

theorem scan1_ptrs (tok : Nat) :
    ∀ (fuel j : Nat) (b : Buf) (c : Ptrs),
      (∀ q, c.cmd = some q → tok ≤ q) → (∀ q, c.outfile = some q → tok ≤ q) →
      (∀ q, (scan1 tok fuel j b c).2.cmd = some q → tok ≤ q) ∧
      (∀ q, (scan1 tok fuel j b c).2.outfile = some q → tok ≤ q) := by
  intro fuel
  induction fuel with
  | zero =>
    intro j b c h1 h2
    exact ⟨h1, h2⟩
  | succ n ih =>
    intro j b c h1 h2
    unfold scan1
    split_ifs with h3 h4
    · exact ⟨h1, h2⟩
    · simp only
      apply ih
      · intro q hq
        simp only [Option.some.injEq] at hq
        omega
      · intro q hq
        simp only [Option.some.injEq] at hq
        omega
    · simp only
      apply ih
      · intro q hq
        simp only [Option.some.injEq] at hq
        omega
      · exact h2

theorem trimSpace_last_frame (b : Buf) (p : Nat) :
    ∀ n, (trimSpace_last b p n).take (p + 1) = b.take (p + 1) ∧
      (trimSpace_last b p n).length = b.length := by
  intro n
  induction n with
  | zero => exact ⟨rfl, rfl⟩
  | succ j ih =>
    unfold trimSpace_last
    split_ifs
    · exact ⟨wr_take b _ _ _ (by omega), wr_length _ _ _⟩
    · exact ih

theorem trimField_frame (b : Buf) (p : Option Nat) (n : Nat)
    (h : ∀ q, p = some q → n ≤ q + 1) :
    (trimField b p).1.take n = b.take n ∧ (trimField b p).1.length = b.length := by
  cases p with
  | none => exact ⟨rfl, rfl⟩
  | some q =>
    unfold trimField trimSpace
    obtain ⟨e1, e2⟩ := trimSpace_last_frame b q (strlen b q)
    exact ⟨take_of_take e1 (h q rfl), e2⟩

/-- A buffer that agrees with `u ++ z` on the string `u` and on the byte
after it is `u` followed by something that reads as terminated. -/
theorem take_frame (u z b1 : Buf) (hz : rd z 0 = NUL)
    (ht : b1.take (u.length + 1) = (u ++ z).take (u.length + 1))
    (hl : b1.length = (u ++ z).length) :
    ∃ z1, b1 = u ++ z1 ∧ rd z1 0 = NUL := by
  have h1 : b1 = b1.take (u.length + 1) ++ b1.drop (u.length + 1) :=
    (List.take_append_drop _ _).symm
  rw [ht, List.take_append] at h1
  refine ⟨z.take 1 ++ b1.drop (u.length + 1), h1.trans (List.append_assoc _ _ _), ?_⟩
  cases z with
  | nil =>
    have : b1.drop (u.length + 1) = [] := by
      apply List.drop_eq_nil_of_le
      rw [hl]
      simp
    rw [this]
    rfl
  | cons a z =>
    rw [rd_zero_cons] at hz
    subst hz
    rfl

theorem take_frame2 (x u z b1 : Buf) (hz : rd z 0 = NUL)
    (ht : b1.take (x.length + u.length + 1) = (x ++ (u ++ z)).take (x.length + u.length + 1))
    (hl : b1.length = (x ++ (u ++ z)).length) :
    ∃ z1, b1 = x ++ (u ++ z1) ∧ rd z1 0 = NUL := by
  have h1 : b1.take ((x ++ u).length + 1) = ((x ++ u) ++ z).take ((x ++ u).length + 1) := by
    rw [List.length_append, List.append_assoc]
    exact ht
  have h2 : b1.length = ((x ++ u) ++ z).length := by
    rw [List.append_assoc]
    exact hl
  obtain ⟨z1, e, hr⟩ := take_frame (x ++ u) z b1 hz h1 h2
  exact ⟨z1, by rw [e, List.append_assoc], hr⟩

/-! ## The iteration bounds are never reached

The three loops that run up to a terminator are given the length of the
buffer as a bound.  A larger bound gives the same result: the loops leave
through the terminator test, not through the bound. -/

theorem rd_beyond (b : Buf) (i : Nat) (h : b.length ≤ i) : rd b i = NUL := by
  unfold rd
  exact List.getD_eq_default _ _ h

theorem scan0_fuel (tok : Nat) :
    ∀ (fuel i : Nat) (b : Buf) (c : Ptrs) (k : Nat), b.length ≤ fuel + (tok + i) →
      scan0 tok (fuel + k) i b c = scan0 tok fuel i b c := by
  intro fuel
  induction fuel with
  | zero =>
    intro i b c k h
    have hnul : rd b (tok + i) = NUL := rd_beyond b _ (by omega)
    cases k with
    | zero => rfl
    | succ k =>
      rw [Nat.zero_add]
      unfold scan0
      rw [if_pos hnul]
  | succ n ih =>
    intro i b c k h
    rw [Nat.add_right_comm]
    unfold scan0
    by_cases h0 : rd b (tok + i) = NUL
    · rw [if_pos h0, if_pos h0]
    · rw [if_neg h0, if_neg h0]
      apply ih
      split_ifs <;> simp only [wr_length] <;> omega

theorem scan1_fuel (tok : Nat) :
    ∀ (fuel j : Nat) (b : Buf) (c : Ptrs) (k : Nat), b.length ≤ fuel + (tok + j) →
      scan1 tok (fuel + k) j b c = scan1 tok fuel j b c := by
  intro fuel
  induction fuel with
  | zero =>
    intro j b c k h
    have hnul : rd b (tok + j) = NUL := rd_beyond b _ (by omega)
    cases k with
    | zero => rfl
    | succ k =>
      rw [Nat.zero_add]
      unfold scan1
      rw [if_pos hnul]
  | succ n ih =>
    intro j b c k h
    rw [Nat.add_right_comm]
    unfold scan1
    split_ifs <;> first
      | rfl
      | (apply ih
         simp only [wr_length]
         omega)

theorem trimSpace_first_fuel (b : Buf) (p : Nat) :
    ∀ (fuel i k : Nat), b.length ≤ fuel + (p + i) →
      trimSpace_first b p (fuel + k) i = trimSpace_first b p fuel i := by
  intro fuel
  induction fuel with
  | zero =>
    intro i k h
    have hnul : rd b (p + i) = NUL := rd_beyond b _ (by omega)
    cases k with
    | zero => rfl
    | succ k =>
      rw [Nat.zero_add]
      unfold trimSpace_first
      rw [if_pos hnul]
  | succ n ih =>
    intro i k h
    rw [Nat.add_right_comm]
    unfold trimSpace_first
    split_ifs <;> first
      | rfl
      | (apply ih
         omega)

/-! ## Stage 0 of a parsed line -/

/-- The two `strtok` calls when the line is a run `lead` of `|`, then a
stage text `s0` that ends at the end of the line or at a `|`. -/
theorem tokens_stage0 (lead s0 tail : Buf) (hlead : ∀ c ∈ lead, c = '|')
    (hs0 : ∀ c ∈ s0, c ≠ NUL ∧ c ≠ '|') (hne : s0 ≠ [])
    (htail : rd tail 0 = NUL ∨ rd tail 0 = '|') :
    ∃ (z : Buf) (t1 : Option Nat),
      tokens (lead ++ (s0 ++ tail)) = (lead ++ (s0 ++ z), some lead.length, t1) ∧
      rd z 0 = NUL ∧ ∀ q, t1 = some q → lead.length + s0.length + 1 ≤ q := by
  have hpre : ∀ c ∈ lead, c ≠ NUL ∧ c ∈ ['|'] :=
    fun c hc => ⟨by rw [hlead c hc]; exact bar_ne_nul, by simp [hlead c hc]⟩
  have htok : ∀ c ∈ s0, c ≠ NUL ∧ c ∉ ['|'] := by
    intro c hc
    exact ⟨(hs0 c hc).1, by simpa using (hs0 c hc).2⟩
  rcases htail with hv | hbar
  · have h0 := strtok_last [] lead s0 tail ['|'] hpre htok hne hv
    have h1 := strtok_none (lead ++ s0) [] tail ['|'] (by simp) hv
    simp only [List.nil_append, List.length_nil, Nat.zero_add, Nat.add_zero,
      List.append_assoc, List.length_append] at h0 h1
    refine ⟨tail, none, ?_, hv, by simp⟩
    simp only [tokens, h0, h1]
  · cases tail with
    | nil => exact absurd hbar (by decide)
    | cons d tail1 =>
      rw [rd_zero_cons] at hbar
      subst hbar
      have h0 := strtok_mid [] lead s0 tail1 '|' ['|'] hpre htok hne ⟨bar_ne_nul, by simp⟩
      simp only [List.nil_append, List.length_nil, Nat.zero_add] at h0
      obtain ⟨hr, hv, hl⟩ := buf_split tail1
      have hlen : (lead ++ (s0 ++ [NUL])).length = lead.length + s0.length + 1 := by
        simp [Nat.add_assoc]
      have hb : lead ++ (s0 ++ NUL :: tail1)
          = (lead ++ (s0 ++ [NUL])) ++ (cstr tail1 0 ++ tail1.drop (cstr tail1 0).length) := by
        rw [← hl]
        simp
      rw [hb, ← hlen] at h0
      rcases strtok_cases (lead ++ (s0 ++ [NUL])) (cstr tail1 0)
          (tail1.drop (cstr tail1 0).length) hr hv with
        ⟨h1, _⟩ | ⟨pre2, tok2, _, _, _, h1, _⟩ | ⟨pre2, tok2, post2, _, _, _, _, h1, _⟩
      · refine ⟨NUL :: (cstr tail1 0 ++ tail1.drop (cstr tail1 0).length), none, ?_, rfl,
          by simp⟩
        simp only [tokens, h0, h1]
        simp
      · refine ⟨NUL :: (pre2 ++ (tok2 ++ tail1.drop (cstr tail1 0).length)),
          some ((lead ++ (s0 ++ [NUL])).length + pre2.length), ?_, rfl, ?_⟩
        · simp only [tokens, h0, h1]
          simp
        · intro q hq
          simp only [Option.some.injEq] at hq
          rw [hlen] at hq
          omega
      · refine ⟨NUL :: (pre2 ++ (tok2 ++ NUL :: (post2 ++ tail1.drop (cstr tail1 0).length))),
          some ((lead ++ (s0 ++ [NUL])).length + pre2.length), ?_, rfl, ?_⟩
        · simp only [tokens, h0, h1]
          simp
        · intro q hq
          simp only [Option.some.injEq] at hq
          rw [hlen] at hq
          omega

theorem map_blankOp_length (s : List Char) : (s.map blankOp).length = s.length :=
  List.length_map _ _

/-- The entry `cmds[0]` of a parsed line, from what the three `trimSpace`
calls on its fields do to the scanned stage text: the work on stage 1 changes
nothing before the terminator that ends stage 0.  `x0` is what stands before
`token[0]` in the buffer. -/
theorem parse_line_cmds0 (line x0 s0 z : Buf) (t1 : Option Nat) (u1 : Buf)
    (pc pi po : Option Nat)
    (htok : tokens line = (x0 ++ (s0 ++ z), some x0.length, t1)) (hs0 : ∀ c ∈ s0, c ≠ NUL)
    (hz : rd z 0 = NUL) (ht1 : ∀ q, t1 = some q → x0.length + s0.length + 1 ≤ q)
    (hlen : u1.length = s0.length)
    (htrim : ∀ z2 : Buf, rd z2 0 = NUL →
      (trimField (trimField (trimField (x0 ++ (s0.map blankOp ++ z2))
          (scanPtrs x0.length x0.length s0 nullPtrs).cmd).1
          (scanPtrs x0.length x0.length s0 nullPtrs).infile).1
          (scanPtrs x0.length x0.length s0 nullPtrs).outfile).1 = x0 ++ (u1 ++ z2) ∧
      (trimField (x0 ++ (s0.map blankOp ++ z2))
          (scanPtrs x0.length x0.length s0 nullPtrs).cmd).2 = pc ∧
      (trimField (trimField (x0 ++ (s0.map blankOp ++ z2))
          (scanPtrs x0.length x0.length s0 nullPtrs).cmd).1
          (scanPtrs x0.length x0.length s0 nullPtrs).infile).2 = pi ∧
      (trimField (trimField (trimField (x0 ++ (s0.map blankOp ++ z2))
          (scanPtrs x0.length x0.length s0 nullPtrs).cmd).1
          (scanPtrs x0.length x0.length s0 nullPtrs).infile).1
          (scanPtrs x0.length x0.length s0 nullPtrs).outfile).2 = po) :
    ∃ z3 : Buf, rd z3 0 = NUL ∧
      (parse_line line).cmds0
        = mkCmd (x0 ++ (u1 ++ z3)) { cmd := pc, infile := pi, outfile := po } := by
  have hscan := scan0_spec x0.length s0 (x0 ++ (s0 ++ z)).length 0 x0 z nullPtrs rfl hs0 hz
    (by simp only [List.length_append]; omega)
  simp only [Nat.add_zero] at hscan
  -- the block for `token[1]`
  have h1 : ∃ (z2 : Buf) (c1 : Ptrs) (n : Nat),
      parse_token1 1 (x0 ++ (s0.map blankOp ++ z)) t1 = (n, x0 ++ (s0.map blankOp ++ z2), c1) ∧
      rd z2 0 = NUL ∧ c1.infile = none ∧
      (∀ q, c1.cmd = some q → x0.length + s0.length + 1 ≤ q) ∧
      (∀ q, c1.outfile = some q → x0.length + s0.length + 1 ≤ q) := by
    cases t1 with
    | none => exact ⟨z, nullPtrs, 1, rfl, hz, rfl, by simp [nullPtrs], by simp [nullPtrs]⟩
    | some q =>
      have hq := ht1 q rfl
      obtain ⟨e1, e2⟩ := scan1_frame q (x0 ++ (s0.map blankOp ++ z)).length 0
        (x0 ++ (s0.map blankOp ++ z)) nullPtrs
      obtain ⟨p1, p2⟩ := scan1_ptrs q (x0 ++ (s0.map blankOp ++ z)).length 0
        (x0 ++ (s0.map blankOp ++ z)) nullPtrs (by simp [nullPtrs]) (by simp [nullPtrs])
      have e3 := take_of_take e1 (by rw [map_blankOp_length]; exact hq :
        x0.length + (s0.map blankOp).length + 1 ≤ q)
      obtain ⟨z2, hz2, hrd2⟩ := take_frame2 x0 (s0.map blankOp) z _ hz e3 e2
      refine ⟨z2, (scan1 q (x0 ++ (s0.map blankOp ++ z)).length 0
        (x0 ++ (s0.map blankOp ++ z)) nullPtrs).2, 2, ?_, hrd2, ?_, ?_, ?_⟩
      · unfold parse_token1
        simp only
        rw [← hz2]
      · rw [scan1_infile]
        rfl
      · intro r hr
        exact le_trans hq (p1 r hr)
      · intro r hr
        exact le_trans hq (p2 r hr)
  obtain ⟨z2, c1, n, hp1, hz2, hin1, hcmd1, hout1⟩ := h1
  obtain ⟨ha3, hpc, hpi, hpo⟩ := htrim z2 hz2
  -- the three `trimSpace` calls on the fields of stage 1
  have hframe : ∀ (b : Buf) (p : Option Nat), (∀ q, p = some q → x0.length + s0.length + 1 ≤ q) →
      (trimField b p).1.take (x0.length + u1.length + 1) = b.take (x0.length + u1.length + 1) ∧
      (trimField b p).1.length = b.length := by
    intro b p hp
    apply trimField_frame
    intro q hq
    have := hp q hq
    omega
  obtain ⟨f1, g1⟩ := hframe (x0 ++ (u1 ++ z2)) c1.cmd hcmd1
  obtain ⟨f2, g2⟩ := hframe (trimField (x0 ++ (u1 ++ z2)) c1.cmd).1 c1.infile (by simp [hin1])
  obtain ⟨f3, g3⟩ := hframe (trimField (trimField (x0 ++ (u1 ++ z2)) c1.cmd).1 c1.infile).1
    c1.outfile hout1
  obtain ⟨z3, hz3, hrd3⟩ := take_frame2 x0 u1 z2
    (trimField (trimField (trimField (x0 ++ (u1 ++ z2)) c1.cmd).1 c1.infile).1 c1.outfile).1 hz2
    (f3.trans (f2.trans f1)) (g3.trans (g2.trans g1))
  refine ⟨z3, hrd3, ?_⟩
  unfold parse_line
  simp only [htok, parse_token0, hscan, hp1, trim_fields, ha3, hpc, hpi, hpo, hz3]

/-! ## Stage texts with the redirections at the end -/

theorem NonBlank.all_false {s : List Char} (h : NonBlank s) :
    s.all (fun c => c == ' ') = false := by
  obtain ⟨c, hc, hne⟩ := h
  rw [List.all_eq_false]
  exact ⟨c, hc, by simpa using hne⟩

theorem NonBlank.ne_nil {s : List Char} (h : NonBlank s) : s ≠ [] := by
  obtain ⟨c, hc, _⟩ := h
  exact List.ne_nil_of_mem hc

theorem Plain.nul_free {s : List Char} (h : Plain s) : ∀ c ∈ s, c ≠ NUL :=
  fun c hc => (h c hc).1

theorem map_blankOp_plain (s : List Char) (h : Plain s) : s.map blankOp = s := by
  induction s with
  | nil => rfl
  | cons a s ih =>
    have ha := h a (List.mem_cons_self _ _)
    rw [List.map_cons, ih (fun c hc => h c (List.mem_cons_of_mem _ hc))]
    simp [blankOp, ha.2.2.1, ha.2.2.2]

theorem scanPtrs_append (tok : Nat) (a b : List Char) :
    ∀ (pos : Nat) (c : Ptrs),
      scanPtrs tok pos (a ++ b) c = scanPtrs tok (pos + a.length) b (scanPtrs tok pos a c) := by
  induction a with
  | nil =>
    intro pos c
    rfl
  | cons x a ih =>
    intro pos c
    rw [List.cons_append, scanPtrs, scanPtrs, ih, List.length_cons, Nat.add_assoc,
      Nat.add_comm 1]

theorem scanPtrs_plain (tok : Nat) (a : List Char) (h : Plain a) :
    ∀ (pos : Nat) (c : Ptrs), c.cmd = some tok → scanPtrs tok pos a c = c := by
  induction a with
  | nil =>
    intro pos c _
    rfl
  | cons x a ih =>
    intro pos c hc
    have hx := h x (List.mem_cons_self _ _)
    simp only [scanPtrs, if_neg hx.2.2.1, if_neg hx.2.2.2]
    have e : ({ c with cmd := some tok } : Ptrs) = c := by
      cases c
      simp only [Ptrs.mk.injEq, and_true]
      exact hc.symm
    rw [e]
    exact ih (fun d hd => h d (List.mem_cons_of_mem _ hd)) _ c hc

theorem scanPtrs_plain_first (tok : Nat) (a : List Char) (h : Plain a) (hne : a ≠ []) (pos : Nat)
    (c : Ptrs) : scanPtrs tok pos a c = { c with cmd := some tok } := by
  obtain ⟨x, t, rfl⟩ := List.exists_cons_of_ne_nil hne
  have hx := h x (List.mem_cons_self _ _)
  simp only [scanPtrs, if_neg hx.2.2.1, if_neg hx.2.2.2]
  exact scanPtrs_plain tok t (fun d hd => h d (List.mem_cons_of_mem _ hd)) _ _ rfl

theorem trim_at (x s z : Buf) (n : Nat) (hn : x.length = n) (hs : Plain s) (hnb : NonBlank s)
    (hz : rd z 0 = NUL) :
    trimField (x ++ (s ++ z)) (some n)
      = (x ++ (trimInPlace s ++ z), some (n + (s.takeWhile (fun c => c == ' ')).length)) := by
  subst hn
  have := trimSpace_spec x s z hs.nul_free hz
  simpa [trimField, hnb.all_false] using this

theorem read_at (x s z : Buf) (n : Nat) (hn : x.length = n) (hs : Plain s) (hnb : NonBlank s)
    (hz : rd z 0 = NUL) :
    cstr (x ++ (trimInPlace s ++ z)) (n + (s.takeWhile (fun c => c == ' ')).length)
      = trimBlanks s := by
  subst hn
  exact cstr_trimInPlace x s z hs.nul_free hz hnb.all_false

theorem dropWhile_congr_mem (p q : Char → Bool) (l : List Char) (h : ∀ c ∈ l, p c = q c) :
    l.dropWhile p = l.dropWhile q := by
  induction l with
  | nil => rfl
  | cons a l ih =>
    rw [List.dropWhile_cons, List.dropWhile_cons, h a (List.mem_cons_self _ _),
      ih (fun c hc => h c (List.mem_cons_of_mem _ hc))]

/-- On a text whose only whitespace is the blank, removing the whitespace at
both ends is removing the blanks at both ends. -/
theorem trimWhitespace_eq (s : List Char) (h : OnlyBlanks s) :
    trimWhitespace s = trimBlanks s := by
  have hpq : ∀ c ∈ s, isspace c = (c == ' ') := by
    intro c hc
    by_cases hsp : isspace c = true
    · rw [hsp, h c hc hsp]
      rfl
    · have hne : c ≠ ' ' := by
        rintro rfl
        exact hsp (by decide)
      simp only [Bool.not_eq_true] at hsp
      rw [hsp]
      exact (beq_eq_false_iff_ne.2 hne).symm
  unfold trimWhitespace trimBlanks
  rw [dropWhile_congr_mem isspace (fun c => c == ' ') s hpq]
  unfold List.rdropWhile
  rw [dropWhile_congr_mem isspace (fun c => c == ' ') _ (fun c hc =>
    hpq c ((List.dropWhile_suffix _).subset (List.mem_reverse.1 hc)))]

theorem stage_text_ok (s0 : List Char) (h : ∀ c ∈ s0, c ≠ NUL ∧ c ≠ '|') :
    ∀ c ∈ s0, c ≠ NUL := fun c hc => (h c hc).1

/-- Stage 0 with one redirection behind the command text `a`: `a < r` when
`isIn` holds, `a > r` otherwise; `lead` is a run of `|` before the stage. -/
theorem parse_line_one (isIn : Bool) (lead a r tail : List Char) (hlead : ∀ c ∈ lead, c = '|')
    (ha : Plain a) (hr : Plain r) (hna : NonBlank a) (hnr : NonBlank r)
    (htail : rd tail 0 = NUL ∨ rd tail 0 = '|') :
    (parse_line (lead ++ (a ++ ((if isIn then '<' else '>') :: (r ++ tail))))).cmds0
      = if isIn then cmdOf (some (trimBlanks a)) (some (trimBlanks r)) none
        else cmdOf (some (trimBlanks a)) none (some (trimBlanks r)) := by
  have ho : (if isIn then '<' else '>') ≠ NUL ∧ (if isIn then '<' else '>') ≠ '|' := by
    cases isIn <;> exact ⟨by decide, by decide⟩
  have hs0 : ∀ d ∈ a ++ (if isIn then '<' else '>') :: r, d ≠ NUL ∧ d ≠ '|' := by
    intro d hd
    rcases List.mem_append.1 hd with h | h
    · exact ⟨(ha d h).1, (ha d h).2.1⟩
    · rcases List.mem_cons.1 h with rfl | h
      · exact ho
      · exact ⟨(hr d h).1, (hr d h).2.1⟩
  have hline : lead ++ (a ++ ((if isIn then '<' else '>') :: (r ++ tail)))
      = lead ++ ((a ++ (if isIn then '<' else '>') :: r) ++ tail) := by simp
  rw [hline]
  obtain ⟨z, t1, htok, hz, ht1⟩ := tokens_stage0 lead _ tail hlead hs0 (by simp) htail
  have hptrs : scanPtrs lead.length lead.length (a ++ (if isIn then '<' else '>') :: r) nullPtrs
      = if isIn then
          { cmd := some lead.length, infile := some (lead.length + a.length + 1),
            outfile := none }
        else
          { cmd := some lead.length, infile := none,
            outfile := some (lead.length + a.length + 1) } := by
    rw [scanPtrs_append, scanPtrs_plain_first _ a ha hna.ne_nil, scanPtrs,
      scanPtrs_plain _ r hr _ _ (by cases isIn <;> rfl)]
    cases isIn <;> simp [nullPtrs]
  have hmap : (a ++ (if isIn then '<' else '>') :: r).map blankOp = a ++ NUL :: r := by
    rw [List.map_append, List.map_cons, map_blankOp_plain a ha, map_blankOp_plain r hr]
    cases isIn <;> rfl
  have hl1 : (lead ++ (trimInPlace a ++ [NUL])).length = lead.length + a.length + 1 := by
    simp only [List.length_append, List.length_singleton, trimInPlace_length]
    omega
  have e1 : ∀ z2 : Buf, trimField (lead ++ (a ++ NUL :: (r ++ z2))) (some lead.length)
      = (lead ++ (trimInPlace a ++ NUL :: (r ++ z2)),
          some (lead.length + (a.takeWhile (fun c => c == ' ')).length)) :=
    fun z2 => trim_at lead a (NUL :: (r ++ z2)) _ rfl ha hna rfl
  have e2 : ∀ z2 : Buf, rd z2 0 = NUL →
      trimField (lead ++ (trimInPlace a ++ NUL :: (r ++ z2))) (some (lead.length + a.length + 1))
      = (lead ++ (trimInPlace a ++ NUL :: (trimInPlace r ++ z2)),
          some (lead.length + a.length + 1 + (r.takeWhile (fun c => c == ' ')).length)) := by
    intro z2 hz2
    have := trim_at (lead ++ (trimInPlace a ++ [NUL])) r z2 _ hl1 hr hnr hz2
    simpa only [List.append_assoc, List.cons_append, List.nil_append,
      List.singleton_append] using this
  obtain ⟨z3, hz3, hcmd⟩ := parse_line_cmds0 _ lead _ z t1
    (trimInPlace a ++ NUL :: trimInPlace r)
    (some (lead.length + (a.takeWhile (fun c => c == ' ')).length))
    (if isIn then some (lead.length + a.length + 1 + (r.takeWhile (fun c => c == ' ')).length)
     else none)
    (if isIn then none
     else some (lead.length + a.length + 1 + (r.takeWhile (fun c => c == ' ')).length))
    htok (stage_text_ok _ hs0) hz ht1 (by simp [trimInPlace_length]) (by
      intro z2 hz2
      rw [hptrs, hmap]
      cases isIn
      · simp only [Bool.false_eq_true, if_false, List.append_assoc, List.cons_append, e1,
          trimField_none]
        rw [e2 z2 hz2]
        refine ⟨?_, ?_, ?_, ?_⟩ <;> first | rfl | trivial
      · simp only [if_true, List.append_assoc, List.cons_append, e1]
        rw [e2 z2 hz2]
        refine ⟨?_, ?_, ?_, ?_⟩ <;> first | rfl | trivial)
  rw [hcmd]
  have q0 := read_at lead a (NUL :: (trimInPlace r ++ z3)) _ rfl ha hna rfl
  have q1 := read_at (lead ++ (trimInPlace a ++ [NUL])) r z3 _ hl1 hr hnr hz3
  simp only [List.append_assoc, List.cons_append, List.nil_append,
    List.singleton_append] at q0 q1
  cases isIn
  · simp only [Bool.false_eq_true, if_false, mkCmd, cmdOf, Option.map_some', Option.map_none',
      List.append_assoc, List.cons_append, q0, q1]
  · simp only [if_true, mkCmd, cmdOf, Option.map_some', Option.map_none', List.append_assoc,
      List.cons_append, q0, q1]

/-- Stage 0 with two redirections behind the command text `a`: the scanned
text holds `a` and two targets, the one trimmed as `infile` and the other as
`outfile`; `inFirst` tells which of the two comes first in the line, and
`lead` is a run of `|` before the stage. -/
theorem parse_line_two (inFirst : Bool) (lead a r1 r2 tail : List Char)
    (hlead : ∀ c ∈ lead, c = '|') (ha : Plain a) (h1 : Plain r1) (h2 : Plain r2)
    (hna : NonBlank a) (hn1 : NonBlank r1) (hn2 : NonBlank r2)
    (htail : rd tail 0 = NUL ∨ rd tail 0 = '|') :
    (parse_line (lead ++ (a ++ ((if inFirst then '<' else '>') ::
        (r1 ++ ((if inFirst then '>' else '<') :: (r2 ++ tail))))))).cmds0
      = if inFirst then cmdOf (some (trimBlanks a)) (some (trimBlanks r1)) (some (trimBlanks r2))
        else cmdOf (some (trimBlanks a)) (some (trimBlanks r2)) (some (trimBlanks r1)) := by
  have ho1 : (if inFirst then '<' else '>') ≠ NUL ∧ (if inFirst then '<' else '>') ≠ '|' := by
    cases inFirst <;> exact ⟨by decide, by decide⟩
  have ho2 : (if inFirst then '>' else '<') ≠ NUL ∧ (if inFirst then '>' else '<') ≠ '|' := by
    cases inFirst <;> exact ⟨by decide, by decide⟩
  have hs0 : ∀ d ∈ a ++ (if inFirst then '<' else '>') :: (r1 ++
      (if inFirst then '>' else '<') :: r2), d ≠ NUL ∧ d ≠ '|' := by
    intro d hd
    rcases List.mem_append.1 hd with h | h
    · exact ⟨(ha d h).1, (ha d h).2.1⟩
    · rcases List.mem_cons.1 h with rfl | h
      · exact ho1
      · rcases List.mem_append.1 h with h | h
        · exact ⟨(h1 d h).1, (h1 d h).2.1⟩
        · rcases List.mem_cons.1 h with rfl | h
          · exact ho2
          · exact ⟨(h2 d h).1, (h2 d h).2.1⟩
  have hline : lead ++ (a ++ ((if inFirst then '<' else '>') ::
        (r1 ++ ((if inFirst then '>' else '<') :: (r2 ++ tail)))))
      = lead ++ ((a ++ (if inFirst then '<' else '>') :: (r1 ++
          (if inFirst then '>' else '<') :: r2)) ++ tail) := by simp
  rw [hline]
  obtain ⟨z, t1, htok, hz, ht1⟩ := tokens_stage0 lead _ tail hlead hs0 (by simp) htail
  have hmap : (a ++ (if inFirst then '<' else '>') :: (r1 ++
      (if inFirst then '>' else '<') :: r2)).map blankOp = a ++ NUL :: (r1 ++ NUL :: r2) := by
    rw [List.map_append, List.map_cons, List.map_append, List.map_cons,
      map_blankOp_plain a ha, map_blankOp_plain r1 h1, map_blankOp_plain r2 h2]
    cases inFirst <;> rfl
  have hlen : (trimInPlace a ++ NUL :: (trimInPlace r1 ++ NUL :: trimInPlace r2)).length
      = (a ++ (if inFirst then '<' else '>') :: (r1 ++
          (if inFirst then '>' else '<') :: r2)).length := by
    simp [trimInPlace_length]
  have hl1 : (lead ++ (trimInPlace a ++ [NUL])).length = lead.length + a.length + 1 := by
    simp only [List.length_append, List.length_singleton, trimInPlace_length]
    omega
  have hl2 : ∀ q : Buf, q.length = r1.length →
      (lead ++ (trimInPlace a ++ NUL :: (q ++ [NUL]))).length
        = lead.length + a.length + 1 + r1.length + 1 := by
    intro q hq
    simp only [List.length_append, List.length_cons, List.length_nil, trimInPlace_length, hq]
    omega
  -- the three regions, trimmed and read
  have e1 : ∀ z2 : Buf, trimField (lead ++ (a ++ NUL :: (r1 ++ NUL :: (r2 ++ z2))))
        (some lead.length)
      = (lead ++ (trimInPlace a ++ NUL :: (r1 ++ NUL :: (r2 ++ z2))),
          some (lead.length + (a.takeWhile (fun c => c == ' ')).length)) :=
    fun z2 => trim_at lead a (NUL :: (r1 ++ NUL :: (r2 ++ z2))) _ rfl ha hna rfl
  have e2 : ∀ (q z2 : Buf),
      trimField (lead ++ (trimInPlace a ++ NUL :: (r1 ++ NUL :: (q ++ z2))))
        (some (lead.length + a.length + 1))
      = (lead ++ (trimInPlace a ++ NUL :: (trimInPlace r1 ++ NUL :: (q ++ z2))),
          some (lead.length + a.length + 1 + (r1.takeWhile (fun c => c == ' ')).length)) := by
    intro q z2
    have := trim_at (lead ++ (trimInPlace a ++ [NUL])) r1 (NUL :: (q ++ z2)) _ hl1 h1 hn1 rfl
    simpa only [List.append_assoc, List.cons_append, List.nil_append,
      List.singleton_append] using this
  have e3 : ∀ (q z2 : Buf), rd z2 0 = NUL → q.length = r1.length →
      trimField (lead ++ (trimInPlace a ++ NUL :: (q ++ NUL :: (r2 ++ z2))))
        (some (lead.length + a.length + 1 + r1.length + 1))
      = (lead ++ (trimInPlace a ++ NUL :: (q ++ NUL :: (trimInPlace r2 ++ z2))),
          some (lead.length + a.length + 1 + r1.length + 1
            + (r2.takeWhile (fun c => c == ' ')).length)) := by
    intro q z2 hz2 hq
    have := trim_at (lead ++ (trimInPlace a ++ NUL :: (q ++ [NUL]))) r2 z2 _ (hl2 q hq) h2 hn2
      hz2
    simpa only [List.append_assoc, List.cons_append, List.nil_append,
      List.singleton_append] using this
  have hptrs : scanPtrs lead.length lead.length (a ++ (if inFirst then '<' else '>') :: (r1 ++
      (if inFirst then '>' else '<') :: r2)) nullPtrs
      = if inFirst then
          { cmd := some lead.length, infile := some (lead.length + a.length + 1),
            outfile := some (lead.length + a.length + 1 + r1.length + 1) }
        else
          { cmd := some lead.length,
            infile := some (lead.length + a.length + 1 + r1.length + 1),
            outfile := some (lead.length + a.length + 1) } := by
    rw [scanPtrs_append, scanPtrs_plain_first _ a ha hna.ne_nil, scanPtrs, scanPtrs_append,
      scanPtrs_plain _ r1 h1 _ _ (by cases inFirst <;> rfl), scanPtrs,
      scanPtrs_plain _ r2 h2 _ _ (by cases inFirst <;> rfl)]
    cases inFirst <;> simp [nullPtrs]
  obtain ⟨z3, hz3, hcmd⟩ := parse_line_cmds0 _ lead _ z t1
    (trimInPlace a ++ NUL :: (trimInPlace r1 ++ NUL :: trimInPlace r2))
    (some (lead.length + (a.takeWhile (fun c => c == ' ')).length))
    (if inFirst then
      some (lead.length + a.length + 1 + (r1.takeWhile (fun c => c == ' ')).length)
     else some (lead.length + a.length + 1 + r1.length + 1
      + (r2.takeWhile (fun c => c == ' ')).length))
    (if inFirst then some (lead.length + a.length + 1 + r1.length + 1
      + (r2.takeWhile (fun c => c == ' ')).length)
     else some (lead.length + a.length + 1 + (r1.takeWhile (fun c => c == ' ')).length))
    htok (stage_text_ok _ hs0) hz ht1 hlen (by
      intro z2 hz2
      rw [hptrs, hmap]
      cases inFirst
      · simp only [Bool.false_eq_true, if_false, List.append_assoc, List.cons_append, e1]
        rw [e3 r1 z2 hz2 rfl, e2 (trimInPlace r2) z2]
        refine ⟨?_, ?_, ?_, ?_⟩ <;> first | rfl | trivial
      · simp only [if_true, List.append_assoc, List.cons_append, e1]
        rw [e2 r2 z2, e3 (trimInPlace r1) z2 hz2 (trimInPlace_length r1)]
        refine ⟨?_, ?_, ?_, ?_⟩ <;> first | rfl | trivial)
  rw [hcmd]
  have q0 := read_at lead a (NUL :: (trimInPlace r1 ++ NUL :: (trimInPlace r2 ++ z3))) _ rfl
    ha hna rfl
  have q1 := read_at (lead ++ (trimInPlace a ++ [NUL])) r1 (NUL :: (trimInPlace r2 ++ z3)) _ hl1
    h1 hn1 rfl
  have q2 := read_at (lead ++ (trimInPlace a ++ NUL :: (trimInPlace r1 ++ [NUL]))) r2 z3 _
    (hl2 _ (trimInPlace_length r1)) h2 hn2 hz3
  simp only [List.append_assoc, List.cons_append, List.nil_append,
    List.singleton_append] at q0 q1 q2
  cases inFirst
  · simp only [Bool.false_eq_true, if_false, mkCmd, cmdOf, Option.map_some', List.append_assoc,
      List.cons_append, q0, q1, q2]
  · simp only [if_true, mkCmd, cmdOf, Option.map_some', List.append_assoc,
      List.cons_append, q0, q1, q2]

/-- C8, as stated, fails: for the stage text `sort < in.txt -r`, where the
redirection stands between the arguments, `parse_line` sets `infile` to
`in.txt -r` and `cmd` to `sort`, not `in.txt` and `sort -r`, and for
`sort > out.txt -r` it sets `outfile` to `out.txt -r`; for `< in.txt sort`,
where the redirection stands before the program name, it sets `infile` to
`in.txt sort` and leaves `cmd` null; and for `ls >` followed by a tab and
`out.txt`, it keeps the tab in `outfile`. -/
theorem parse_line_redirection_takes_rest :
    (parse_line "sort < in.txt -r".toList).cmds0
      = cmdOf (some "sort".toList) (some "in.txt -r".toList) none ∧
    (parse_line "sort < in.txt -r".toList).cmds0
      ≠ cmdOf (some "sort -r".toList) (some "in.txt".toList) none ∧
    (parse_line "sort > out.txt -r".toList).cmds0
      = cmdOf (some "sort".toList) none (some "out.txt -r".toList) ∧
    (parse_line "< in.txt sort".toList).cmds0
      = cmdOf none (some "in.txt sort".toList) none ∧
    (parse_line "ls >\tout.txt".toList).cmds0
      = cmdOf (some "ls".toList) none (some "\tout.txt".toList) ∧
    trimWhitespace "\tout.txt".toList = "out.txt".toList :=
  ⟨by decide, by decide, by decide, by decide, by decide, by decide⟩

/-- C8, amended: let the text of stage 0 (the first stage of the line, after
any `|` the line starts with) be a command text `a` followed, up to the end
of the stage (the end of the line or the `|`), by `<b`, by `>c`, or by both
in either order, where `a`, `b`, `c` hold no operator, have the blank as
their only whitespace, and each holds a character that is not a blank.  Then
`parse_line` sets `cmd` to `a`, `infile` to `b` and `outfile` to `c`, each
with the whitespace at both ends removed, and leaves the field of an absent
redirection null. -/
theorem parse_line_trailing_redirections (lead a b c tail : List Char)
    (hlead : ∀ d ∈ lead, d = '|')
    (ha : Plain a) (hb : Plain b) (hc : Plain c)
    (hwa : OnlyBlanks a) (hwb : OnlyBlanks b) (hwc : OnlyBlanks c)
    (hna : NonBlank a) (hnb : NonBlank b) (hnc : NonBlank c)
    (htail : rd tail 0 = NUL ∨ rd tail 0 = '|') :
    (parse_line (lead ++ (a ++ ('<' :: (b ++ tail))))).cmds0
      = cmdOf (some (trimWhitespace a)) (some (trimWhitespace b)) none ∧
    (parse_line (lead ++ (a ++ ('>' :: (c ++ tail))))).cmds0
      = cmdOf (some (trimWhitespace a)) none (some (trimWhitespace c)) ∧
    (parse_line (lead ++ (a ++ ('<' :: (b ++ ('>' :: (c ++ tail))))))).cmds0
      = cmdOf (some (trimWhitespace a)) (some (trimWhitespace b)) (some (trimWhitespace c)) ∧
    (parse_line (lead ++ (a ++ ('>' :: (c ++ ('<' :: (b ++ tail))))))).cmds0
      = cmdOf (some (trimWhitespace a)) (some (trimWhitespace b))
          (some (trimWhitespace c)) := by
  rw [trimWhitespace_eq a hwa, trimWhitespace_eq b hwb, trimWhitespace_eq c hwc]
  refine ⟨?_, ?_, ?_, ?_⟩
  · have := parse_line_one true lead a b tail hlead ha hb hna hnb htail
    simpa using this
  · have := parse_line_one false lead a c tail hlead ha hc hna hnc htail
    simpa using this
  · have := parse_line_two true lead a b c tail hlead ha hb hc hna hnb hnc htail
    simpa using this
  · have := parse_line_two false lead a c b tail hlead ha hc hb hna hnc hnb htail
    simpa using this

/-- Witness for C8 (amended): a line that starts with `|`, the command text
`sort`, the targets `in.txt` and `out.txt` with blanks around them, before
`| uniq`. -/
theorem parse_line_trailing_redirections_witness :
    (parse_line ("|".toList ++ ("sort ".toList ++
        ('<' :: (" in.txt ".toList ++ "| uniq".toList))))).cmds0
      = cmdOf (some (trimWhitespace "sort ".toList)) (some (trimWhitespace " in.txt ".toList))
          none ∧
    (parse_line ("|".toList ++ ("sort ".toList ++
        ('>' :: (" out.txt ".toList ++ "| uniq".toList))))).cmds0
      = cmdOf (some (trimWhitespace "sort ".toList)) none
          (some (trimWhitespace " out.txt ".toList)) ∧
    (parse_line ("|".toList ++ ("sort ".toList ++ ('<' :: (" in.txt ".toList ++
        ('>' :: (" out.txt ".toList ++ "| uniq".toList))))))).cmds0
      = cmdOf (some (trimWhitespace "sort ".toList)) (some (trimWhitespace " in.txt ".toList))
          (some (trimWhitespace " out.txt ".toList)) ∧
    (parse_line ("|".toList ++ ("sort ".toList ++ ('>' :: (" out.txt ".toList ++
        ('<' :: (" in.txt ".toList ++ "| uniq".toList))))))).cmds0
      = cmdOf (some (trimWhitespace "sort ".toList)) (some (trimWhitespace " in.txt ".toList))
          (some (trimWhitespace " out.txt ".toList)) :=
  parse_line_trailing_redirections "|".toList "sort ".toList " in.txt ".toList
    " out.txt ".toList "| uniq".toList (by decide) (by decide) (by decide) (by decide)
    (by decide) (by decide) (by decide) (by decide) (by decide) (by decide) (by decide)


end SimpleShell
